import Mathlib

/-!
GeeCache `lfu` package: shallow embedding and verification.

Embedding of `src/lfu/lfu.go`.

* Go maps are association lists without repeated keys (`GoMap`): `get?` is the
  comma-ok lookup, `set` is `m[k] = v`, `delete` is `delete(m, k)`, `len` is `len(m)`.
  The order of the list carries no meaning; the order in which `range` visits a map
  is an input of `removeOldest` (`iter`), any permutation of the keys of the group.
  Each call of `Add` has its own `iter`; within one call every `removeOldest` that
  visits a group sees a group smaller than the one before, so a function of the group
  covers every sequence of visits.
* `int64` counters are mathematical integers: byte totals, frequencies and
  timestamps stay far below `2 ^ 63` for data held in memory. Where a claim depends on
  the byte total of a value whose `Len()` is near the bounds of `int64`, the definitions
  `store64`, `removeKey64`, `removeOldest64`, `evictLoop64` and `Add64` take the
  arithmetic on `nBytes` (lines 48, 55 and 133) in `int64`, with wrap-around (`wrap64`);
  they agree with the others on every field but `nBytes` (`store64_eq`,
  `removeOldest64_eq`), and their `nBytes` is the sum of the sizes of the entries
  reduced to `int64` (`Inv64`).
* `time.Now().UnixNano()` is an input (`now`) of `Add`.
* The callback `OnEvicted` is an external function: the field `OnEvicted` records
  whether one is configured and `calls` logs the invocations in order.
* The `for` loop of `Add` is unrolled with fuel: `none` means that the loop has
  not finished within the given number of iterations.
-/

namespace lfu

/-- Go map as an association list. -/
abbrev GoMap (κ ν : Type) := List (κ × ν)

namespace GoMap

variable {κ ν : Type} [DecidableEq κ]

/-- Comma-ok lookup `v, ok := m[k]`. -/
def get? : GoMap κ ν → κ → Option ν
  | [], _ => none
  | (k', v) :: m, k => if k' = k then some v else get? m k

/-- Assignment `m[k] = v`: overwrite in place, or a new entry. -/
def set : GoMap κ ν → κ → ν → GoMap κ ν
  | [], k, v => [(k, v)]
  | (k', v') :: m, k, v => if k' = k then (k, v) :: m else (k', v') :: set m k v

/-- Builtin `delete(m, k)`. -/
def delete : GoMap κ ν → κ → GoMap κ ν
  | [], _ => []
  | (k', v') :: m, k => if k' = k then delete m k else (k', v') :: delete m k

/-- Builtin `len(m)`. -/
def len (m : GoMap κ ν) : Int := (m.length : Int)

/-- Keys of the map. -/
def keys (m : GoMap κ ν) : List κ := m.map Prod.fst

end GoMap

/-- Interface `Value`: a stored value, with the result of its method `Len()`. -/
structure Value where
  data : String
  Len : Int
deriving DecidableEq, Repr

/-- Test type `String` of `lfu_test.go`, whose `Len()` is the byte length. -/
def Value.ofString (s : String) : Value := ⟨s, (s.utf8ByteSize : Int)⟩

/-- Struct `Cache`. -/
structure Cache where
  maxBytes : Int
  nBytes : Int
  cache : GoMap String Value
  freqMap : GoMap String Int
  timeMap : GoMap String Int
  freqToKeys : GoMap Int (GoMap String Bool)
  minFreq : Int
  OnEvicted : Bool
  calls : List (String × Value)
deriving DecidableEq, Repr

/-- Builtin `len(key)` of a string: its length in bytes. -/
def strLen (key : String) : Int := (key.utf8ByteSize : Int)

/-- Function `New`. -/
def New (maxBytes : Int) (OnEvicted : Bool) : Cache :=
  { maxBytes := maxBytes, nBytes := 0, cache := [], freqMap := [], timeMap := [],
    freqToKeys := [], minFreq := 1, OnEvicted := OnEvicted, calls := [] }

/-- Read `c.freqMap[key]`, zero when the key is missing. -/
def freqOf (c : Cache) (key : String) : Int := (c.freqMap.get? key).getD 0

/-- Read `c.timeMap[key]`, zero when the key is missing. -/
def timeOf (c : Cache) (key : String) : Int := (c.timeMap.get? key).getD 0

/-- Read `c.freqToKeys[freq]`, the nil map (of length 0) when the group is missing. -/
def groupOf (c : Cache) (freq : Int) : GoMap String Bool := (c.freqToKeys.get? freq).getD []

/-- Method `setFreq`. -/
def setFreq (c : Cache) (key : String) (freq : Int) : Cache :=
  let c1 := { c with freqMap := c.freqMap.set key freq }
  let c2 := if c1.freqToKeys.get? freq = none
    then { c1 with freqToKeys := c1.freqToKeys.set freq [] } else c1
  { c2 with freqToKeys := c2.freqToKeys.set freq ((groupOf c2 freq).set key true) }

/-- Method `removeFromFreqSet`. -/
def removeFromFreqSet (c : Cache) (key : String) (freq : Int) : Cache :=
  match c.freqToKeys.get? freq with
  | some freqSet =>
    let freqSet1 := freqSet.delete key
    let c1 := { c with freqToKeys := c.freqToKeys.set freq freqSet1 }
    if freqSet1.len = 0 then { c1 with freqToKeys := c1.freqToKeys.delete freq } else c1
  | none => c

/-- Method `updateFreq`. -/
def updateFreq (c : Cache) (key : String) : Cache :=
  let oldFreq := freqOf c key
  let newFreq := oldFreq + 1
  let c1 := removeFromFreqSet c key oldFreq
  let c2 := setFreq c1 key newFreq
  if oldFreq = c2.minFreq ∧ c2.freqToKeys.get? oldFreq ≠ none ∧ (groupOf c2 oldFreq).len = 0
  then { c2 with minFreq := newFreq } else c2

/-- Method `Len`. -/
def Cache.Len (c : Cache) : Int := c.cache.len

/-- Method `Bytes`. -/
def Cache.Bytes (c : Cache) : Int := c.nBytes

/-- Method `Get`: the value (`none` for the nil interface), `ok`, and the cache afterwards. -/
def Get (c : Cache) (key : String) : Option Value × Bool × Cache :=
  match c.cache.get? key with
  | some val => (some val, true, updateFreq c key)
  | none => (none, false, c)

/-- Method `removeKey`. -/
def removeKey (c : Cache) (key : String) : Cache :=
  match c.cache.get? key with
  | some val =>
    let c1 := { c with nBytes := c.nBytes - (strLen key + val.Len) }
    let freq := freqOf c1 key
    let c2 := removeFromFreqSet c1 key freq
    let c3 := { c2 with freqMap := c2.freqMap.delete key }
    let c4 := { c3 with timeMap := c3.timeMap.delete key }
    let c5 := { c4 with cache := c4.cache.delete key }
    if c5.OnEvicted then { c5 with calls := c5.calls ++ [(key, val)] } else c5
  | none => c

/-- One iteration of the `range` loop of `removeOldest`, on the pair
`(keyToRemove, earliestTime)`. -/
def scanStep (c : Cache) (acc : String × Int) (k : String) : String × Int :=
  if acc.1 = "" ∨ timeOf c k < acc.2 then (k, timeOf c k) else acc

/-- The `range` loop of `removeOldest` over the keys in the order visited. -/
def scan (c : Cache) (visited : List String) : String × Int :=
  visited.foldl (scanStep c) ("", 0)

/-- Method `removeOldest`; `iter` is the order in which `range` visits a group. -/
def removeOldest (iter : List String → List String) (c : Cache) : Cache :=
  if c.cache.len = 0 then c
  else
    let minFreqKeys := groupOf c c.minFreq
    if minFreqKeys.len = 0 then c
    else removeKey c (scan c (iter minFreqKeys.keys)).1

/-- Lines 46-59 of `Add`: overwrite of a present key, or insertion of a new one. -/
def store (c : Cache) (key : String) (value : Value) (now : Int) : Cache :=
  match c.cache.get? key with
  | some val =>
    let c1 := { c with nBytes := c.nBytes + (value.Len - val.Len) }
    let c2 := { c1 with cache := c1.cache.set key value }
    updateFreq c2 key
  | none =>
    let c1 := { c with cache := c.cache.set key value }
    let c2 := { c1 with nBytes := c1.nBytes + (strLen key + value.Len) }
    let c3 := { c2 with timeMap := c2.timeMap.set key now }
    let c4 := setFreq c3 key 1
    { c4 with minFreq := 1 }

/-- Guard of the eviction loop of `Add`. -/
def overCapacity (c : Cache) : Prop := c.maxBytes ≠ 0 ∧ c.nBytes > c.maxBytes

instance (c : Cache) : Decidable (overCapacity c) := by
  unfold overCapacity; exact inferInstance

/-- Lines 61-63 of `Add`: the eviction loop, at most `fuel` iterations. -/
def evictLoop (iter : List String → List String) : Nat → Cache → Option Cache
  | 0, c => if overCapacity c then none else some c
  | fuel + 1, c => if overCapacity c then evictLoop iter fuel (removeOldest iter c) else some c

/-- Method `Add`. -/
def Add (fuel : Nat) (iter : List String → List String) (c : Cache) (key : String)
    (value : Value) (now : Int) : Option Cache :=
  evictLoop iter fuel (store c key value now)

/-- An iteration order visits every key of the group once. -/
def ValidIter (iter : List String → List String) : Prop := ∀ l, (iter l).Perm l

/-- A call of the public interface, with the inputs it consumes. -/
inductive Op where
  | get (key : String)
  | add (key : String) (value : Value) (now : Int) (iter : List String → List String)

/-- Effect of one call on the cache; `none` when the call does not return within `fuel`. -/
def step (fuel : Nat) (c : Cache) : Op → Option Cache
  | .get key => some (Get c key).2.2
  | .add key value now iter => Add fuel iter c key value now

/-- A sequence of calls, each completed before the next starts. -/
def run (fuel : Nat) : Cache → List Op → Option Cache
  | c, [] => some c
  | c, op :: ops => (step fuel c op).bind (fun c1 => run fuel c1 ops)

/-- The iteration orders used by a sequence of calls are all valid. -/
def ValidOps : List Op → Prop
  | [] => True
  | .get _ :: ops => ValidOps ops
  | .add _ _ _ iter :: ops => ValidIter iter ∧ ValidOps ops

/-- States the cache of `New maxBytes cb` passes through: after `New`, after a `Get`,
after the first half of `Add`, and after each `removeOldest` of its eviction loop. -/
inductive Reachable (maxBytes : Int) (cb : Bool) : Cache → Prop where
  | init : Reachable maxBytes cb (New maxBytes cb)
  | get {c : Cache} (key : String) : Reachable maxBytes cb c →
      Reachable maxBytes cb (Get c key).2.2
  | store {c : Cache} (key : String) (value : Value) (now : Int) :
      Reachable maxBytes cb c → Reachable maxBytes cb (store c key value now)
  | evict {c : Cache} (iter : List String → List String) : Reachable maxBytes cb c →
      ValidIter iter → overCapacity c → Reachable maxBytes cb (removeOldest iter c)

/-- Sum of `len(key) + value.Len()` over the entries of the cache map. -/
def bytesOf (m : GoMap String Value) : Int := (m.map (fun e => strLen e.1 + e.2.Len)).sum

/-- Keys passed to `Add` by a sequence of calls. -/
def addedKeys : List Op → List String
  | [] => []
  | .get _ :: ops => addedKeys ops
  | .add key _ _ _ :: ops => key :: addedKeys ops

/-- The cache after `n` successive calls `Get(key)`. -/
def getTimes : Nat → Cache → String → Cache
  | 0, c, _ => c
  | n + 1, c, key => getTimes n (Get c key).2.2 key

/-- State of `TestLFUEviction` inside the last `Add`, before its eviction loop: `key1` has
frequency 3, `key2` has 2, `key3` and `key4` have 1, and 32 bytes are held for capacity 30. -/
def lfuEvictionState : Cache :=
  store (Get (Get (Get (store (store (store (New 30 false)
    "key1" (Value.ofString "val1") 1) "key2" (Value.ofString "val2") 2)
    "key3" (Value.ofString "val3") 3) "key1").2.2 "key2").2.2 "key1").2.2
    "key4" (Value.ofString "val4") 4

/-- State inside `Add("a", "xyz")` on a cache of capacity 3 that holds the empty key, before
the eviction loop: both keys have frequency 1, `""` was stored at time 1 and `"a"` at time 2. -/
def emptyKeyState : Cache :=
  store (store (New 3 false) "" (Value.ofString "x") 1) "a" (Value.ofString "xyz") 2

/-- Cache of capacity 10 after `Add("a", "1")` and `Get("a")`: the key `a` has frequency 2. -/
def accessedState : Cache := (Get (store (New 10 true) "a" (Value.ofString "1") 1) "a").2.2

/-- Two insertions after `accessedState`: `b` with 8 bytes, then `c` with 2 bytes, which
takes the byte total to 12 and evicts `b`. -/
def laterInserts : List Op :=
  [Op.add "b" (Value.ofString "1234567") 2 id, Op.add "c" (Value.ofString "1") 3 id]

/-- Consistency of the indexes of a cache built by `New cap cb`: the configuration is
that of `New` and `minFreq` is 1; the keys of the cache map are distinct and are those of
the frequency and timestamp maps; frequencies are at least 1; a key is a member of a group
exactly when the group is that of its frequency; no stored group is empty; and `nBytes`
is the sum of the sizes of the entries. -/
structure Inv (cap : Int) (cb : Bool) (c : Cache) : Prop where
  maxBytes_eq : c.maxBytes = cap
  callback_eq : c.OnEvicted = cb
  minFreq_eq : c.minFreq = 1
  nodup : c.cache.keys.Nodup
  dom : ∀ k, c.cache.get? k ≠ none ↔ c.freqMap.get? k ≠ none
  freq_pos : ∀ k f, c.freqMap.get? k = some f → 1 ≤ f
  group_freq : ∀ f g k, c.freqToKeys.get? f = some g → g.get? k ≠ none →
    c.freqMap.get? k = some f
  bytes : c.nBytes = bytesOf c.cache
  freq_group : ∀ k f, c.freqMap.get? k = some f →
    ∃ g, c.freqToKeys.get? f = some g ∧ g.get? k ≠ none
  group_nonempty : ∀ f g, c.freqToKeys.get? f = some g → g ≠ []
  time_dom : ∀ k, c.cache.get? k ≠ none ↔ c.timeMap.get? k ≠ none

/-- Result of an `int64` operation whose exact value is `x`: the integer of the range
from `-2^63` to `2^63 - 1` that differs from `x` by a multiple of `2^64`. -/
def wrap64 (x : Int) : Int :=
  (x + 9223372036854775808) % 18446744073709551616 - 9223372036854775808

/-- Method `removeKey`, with the subtraction on `nBytes` in `int64`. -/
def removeKey64 (c : Cache) (key : String) : Cache :=
  match c.cache.get? key with
  | some val =>
    let c1 := { c with nBytes := wrap64 (c.nBytes - wrap64 (strLen key + val.Len)) }
    let freq := freqOf c1 key
    let c2 := removeFromFreqSet c1 key freq
    let c3 := { c2 with freqMap := c2.freqMap.delete key }
    let c4 := { c3 with timeMap := c3.timeMap.delete key }
    let c5 := { c4 with cache := c4.cache.delete key }
    if c5.OnEvicted then { c5 with calls := c5.calls ++ [(key, val)] } else c5
  | none => c

/-- Method `removeOldest`, removing with `removeKey64`. -/
def removeOldest64 (iter : List String → List String) (c : Cache) : Cache :=
  if c.cache.len = 0 then c
  else
    let minFreqKeys := groupOf c c.minFreq
    if minFreqKeys.len = 0 then c
    else removeKey64 c (scan c (iter minFreqKeys.keys)).1

/-- Lines 46-59 of `Add`, with the additions on `nBytes` in `int64`. -/
def store64 (c : Cache) (key : String) (value : Value) (now : Int) : Cache :=
  match c.cache.get? key with
  | some val =>
    let c1 := { c with nBytes := wrap64 (c.nBytes + wrap64 (value.Len - val.Len)) }
    let c2 := { c1 with cache := c1.cache.set key value }
    updateFreq c2 key
  | none =>
    let c1 := { c with cache := c.cache.set key value }
    let c2 := { c1 with nBytes := wrap64 (c1.nBytes + wrap64 (strLen key + value.Len)) }
    let c3 := { c2 with timeMap := c2.timeMap.set key now }
    let c4 := setFreq c3 key 1
    { c4 with minFreq := 1 }

/-- Lines 61-63 of `Add`, evicting with `removeOldest64`, at most `fuel` iterations. -/
def evictLoop64 (iter : List String → List String) : Nat → Cache → Option Cache
  | 0, c => if overCapacity c then none else some c
  | fuel + 1, c =>
    if overCapacity c then evictLoop64 iter fuel (removeOldest64 iter c) else some c

/-- Method `Add`, with the byte total in `int64`. -/
def Add64 (fuel : Nat) (iter : List String → List String) (c : Cache) (key : String)
    (value : Value) (now : Int) : Option Cache :=
  evictLoop64 iter fuel (store64 c key value now)

/-- States the cache of `New maxBytes cb` passes through when the byte total is kept in
`int64`: after `New`, after a `Get`, after the first half of `Add`, and after each
`removeOldest` of its eviction loop. -/
inductive Reachable64 (maxBytes : Int) (cb : Bool) : Cache → Prop where
  | init : Reachable64 maxBytes cb (New maxBytes cb)
  | get {c : Cache} (key : String) : Reachable64 maxBytes cb c →
      Reachable64 maxBytes cb (Get c key).2.2
  | store {c : Cache} (key : String) (value : Value) (now : Int) :
      Reachable64 maxBytes cb c → Reachable64 maxBytes cb (store64 c key value now)
  | evict {c : Cache} (iter : List String → List String) : Reachable64 maxBytes cb c →
      ValidIter iter → overCapacity c → Reachable64 maxBytes cb (removeOldest64 iter c)

/-- The cache with another byte total. -/
def setBytes (c : Cache) (n : Int) : Cache := { c with nBytes := n }

/-- Consistency of a cache whose byte total is kept in `int64`: the indexes are consistent
and `nBytes` is the sum of the sizes of the entries reduced to `int64`. -/
structure Inv64 (cap : Int) (cb : Bool) (c : Cache) : Prop where
  idx : Inv cap cb (setBytes c (bytesOf c.cache))
  total : c.nBytes = wrap64 (bytesOf c.cache)

/-- A value whose `Len()` is the largest `int64`. -/
def hugeValue : Value := ⟨"huge", 9223372036854775807⟩

/-- Representation of the other maps: the keys of the frequency map, of the timestamp map
and of the group index are distinct, and so are the members of every stored group. -/
structure Distinct (c : Cache) : Prop where
  freqMap_nodup : c.freqMap.keys.Nodup
  timeMap_nodup : c.timeMap.keys.Nodup
  freqToKeys_nodup : c.freqToKeys.keys.Nodup
  groups_nodup : ∀ e ∈ c.freqToKeys, e.2.keys.Nodup

/-! ## Lemmas on maps -/

namespace GoMap

variable {κ ν : Type} [DecidableEq κ]

theorem get?_set (m : GoMap κ ν) (k k' : κ) (v : ν) :
    get? (set m k v) k' = if k' = k then some v else get? m k' := by
  induction m with
  | nil =>
    by_cases h : k' = k
    · simp [set, get?, h]
    · have h' : ¬ k = k' := fun e => h e.symm
      simp [set, get?, h, h']
  | cons e m ih =>
    obtain ⟨a, b⟩ := e
    by_cases h1 : a = k
    · subst h1
      by_cases h2 : k' = a
      · simp [set, get?, h2]
      · have h2' : ¬ a = k' := fun e => h2 e.symm
        simp [set, get?, h2, h2']
    · by_cases h2 : a = k'
      · subst h2
        simp [set, get?, h1]
      · simp [set, get?, h1, h2, ih]

theorem get?_delete (m : GoMap κ ν) (k k' : κ) :
    get? (delete m k) k' = if k' = k then none else get? m k' := by
  induction m with
  | nil => simp [delete, get?]
  | cons e m ih =>
    obtain ⟨a, b⟩ := e
    by_cases h1 : a = k
    · subst h1
      by_cases h2 : k' = a
      · subst h2
        simpa [delete, get?] using ih
      · have h2' : ¬ a = k' := fun e => h2 e.symm
        simp [delete, get?, h2, h2', ih]
    · by_cases h2 : a = k'
      · subst h2
        simp [delete, get?, h1]
      · simp [delete, get?, h1, h2, ih]

theorem mem_keys_iff (m : GoMap κ ν) (k : κ) : k ∈ keys m ↔ get? m k ≠ none := by
  induction m with
  | nil => simp [keys, get?]
  | cons e m ih =>
    obtain ⟨a, b⟩ := e
    by_cases h : a = k
    · simp [keys, get?, h]
    · have h' : ¬ k = a := fun e => h e.symm
      simp only [keys, List.map_cons, List.mem_cons, h', false_or, get?, h, if_false]
      exact ih

theorem keys_delete (m : GoMap κ ν) (k : κ) : keys (delete m k) = (keys m).filter (· ≠ k) := by
  induction m with
  | nil => simp [keys, delete]
  | cons e m ih =>
    obtain ⟨a, b⟩ := e
    by_cases h : a = k
    · simp only [keys] at ih
      simp [keys, delete, h, ih]
    · simp only [keys] at ih
      simp [keys, delete, h, ih]

theorem nodup_delete (m : GoMap κ ν) (k : κ) (h : (keys m).Nodup) :
    (keys (delete m k)).Nodup := by
  rw [keys_delete]; exact h.filter _

theorem nodup_set (m : GoMap κ ν) (k : κ) (v : ν) (h : (keys m).Nodup) :
    (keys (set m k v)).Nodup := by
  induction m with
  | nil => simp [keys, set]
  | cons e m ih =>
    obtain ⟨a, b⟩ := e
    have hn : a ∉ keys m ∧ (keys m).Nodup := by simpa [keys] using h
    by_cases h1 : a = k
    · subst h1
      simpa [keys, set] using h
    · have hmem : a ∉ keys (set m k v) := by
        rw [mem_keys_iff, get?_set, if_neg h1, ← mem_keys_iff]
        simpa using hn.1
      have := ih hn.2
      simp only [set, h1, if_false]
      simp only [keys, List.map_cons, List.nodup_cons] at *
      exact ⟨hmem, this⟩

theorem set_ne_nil (m : GoMap κ ν) (k : κ) (v : ν) : set m k v ≠ [] := by
  cases m with
  | nil => simp [set]
  | cons e m =>
    obtain ⟨a, b⟩ := e
    by_cases h : a = k <;> simp [set, h]

theorem ne_nil_of_get? (m : GoMap κ ν) (k : κ) (h : get? m k ≠ none) : m ≠ [] := by
  intro he
  rw [he] at h
  exact h rfl

theorem delete_of_not_mem (m : GoMap κ ν) (k : κ) (h : get? m k = none) : delete m k = m := by
  induction m with
  | nil => rfl
  | cons e m ih =>
    obtain ⟨a, b⟩ := e
    by_cases h1 : a = k
    · simp [get?, h1] at h
    · simp only [get?, h1, if_false] at h
      simp [delete, h1, ih h]

end GoMap

theorem bytesOf_set_new (m : GoMap String Value) (k : String) (v : Value)
    (h : m.get? k = none) : bytesOf (m.set k v) = bytesOf m + (strLen k + v.Len) := by
  induction m with
  | nil => simp [bytesOf, GoMap.set]
  | cons e m ih =>
    obtain ⟨a, b⟩ := e
    by_cases h1 : a = k
    · simp [GoMap.get?, h1] at h
    · simp only [GoMap.get?, h1, if_false] at h
      have := ih h
      simp only [bytesOf, GoMap.set, h1, if_false, List.map_cons, List.sum_cons] at *
      rw [this]; ring

theorem bytesOf_set_old (m : GoMap String Value) (k : String) (v old : Value)
    (h : m.get? k = some old) : bytesOf (m.set k v) = bytesOf m + (v.Len - old.Len) := by
  induction m with
  | nil => simp [GoMap.get?] at h
  | cons e m ih =>
    obtain ⟨a, b⟩ := e
    by_cases h1 : a = k
    · subst h1
      simp only [GoMap.get?, if_true, Option.some.injEq] at h
      subst h
      simp only [bytesOf, GoMap.set, if_true, List.map_cons, List.sum_cons]
      ring
    · simp only [GoMap.get?, h1, if_false] at h
      have := ih h
      simp only [bytesOf, GoMap.set, h1, if_false, List.map_cons, List.sum_cons] at *
      rw [this]; ring

theorem bytesOf_delete (m : GoMap String Value) (k : String) (old : Value)
    (hn : m.keys.Nodup) (h : m.get? k = some old) :
    bytesOf (m.delete k) = bytesOf m - (strLen k + old.Len) := by
  induction m with
  | nil => simp [GoMap.get?] at h
  | cons e m ih =>
    obtain ⟨a, b⟩ := e
    have hn' : a ∉ GoMap.keys m ∧ (GoMap.keys m).Nodup := by simpa [GoMap.keys] using hn
    by_cases h1 : a = k
    · subst h1
      simp only [GoMap.get?, if_true, Option.some.injEq] at h
      subst h
      have hk : GoMap.get? m a = none := by
        by_contra hc
        exact hn'.1 ((GoMap.mem_keys_iff m a).2 hc)
      simp only [bytesOf, GoMap.delete, if_true, List.map_cons, List.sum_cons,
        GoMap.delete_of_not_mem m a hk]
      ring
    · simp only [GoMap.get?, h1, if_false] at h
      have := ih hn'.2 h
      simp only [bytesOf, GoMap.delete, h1, if_false, List.map_cons, List.sum_cons] at *
      rw [this]; ring

/-! ## Effect of the helpers on each field -/

theorem GoMap.len_eq_zero {κ ν : Type} (m : GoMap κ ν) : m.len = 0 ↔ m = [] := by
  cases m <;> simp [GoMap.len]
  omega

theorem setFreq_freqToKeys (c : Cache) (key : String) (freq f : Int) :
    (setFreq c key freq).freqToKeys.get? f =
      if f = freq then some ((groupOf c freq).set key true) else c.freqToKeys.get? f := by
  by_cases h : c.freqToKeys.get? freq = none
  · by_cases hf : f = freq <;> simp [setFreq, groupOf, h, hf, GoMap.get?_set]
  · by_cases hf : f = freq <;> simp [setFreq, groupOf, h, hf, GoMap.get?_set]

theorem setFreq_freqMap (c : Cache) (key : String) (freq : Int) :
    (setFreq c key freq).freqMap = c.freqMap.set key freq := by
  by_cases h : c.freqToKeys.get? freq = none <;> simp [setFreq, h]

theorem setFreq_frame (c : Cache) (key : String) (freq : Int) :
    (setFreq c key freq).maxBytes = c.maxBytes ∧ (setFreq c key freq).nBytes = c.nBytes ∧
    (setFreq c key freq).cache = c.cache ∧ (setFreq c key freq).timeMap = c.timeMap ∧
    (setFreq c key freq).minFreq = c.minFreq ∧ (setFreq c key freq).OnEvicted = c.OnEvicted ∧
    (setFreq c key freq).calls = c.calls := by
  by_cases h : c.freqToKeys.get? freq = none <;> simp [setFreq, h]

theorem removeFromFreqSet_freqToKeys (c : Cache) (key : String) (freq f : Int) :
    (removeFromFreqSet c key freq).freqToKeys.get? f =
      if f = freq then
        (match c.freqToKeys.get? freq with
          | some g => if g.delete key = [] then none else some (g.delete key)
          | none => none)
      else c.freqToKeys.get? f := by
  unfold removeFromFreqSet
  cases hg : c.freqToKeys.get? freq with
  | none =>
    by_cases h : f = freq
    · simp [h, hg]
    · simp [h]
  | some g =>
    by_cases he : g.delete key = []
    · by_cases h : f = freq
      · simp [he, GoMap.len, GoMap.get?_delete, h]
      · simp [he, GoMap.len, GoMap.get?_delete, GoMap.get?_set, h]
    · have hl : ¬ (GoMap.delete g key).len = 0 := by
        rw [GoMap.len_eq_zero]; exact he
      by_cases h : f = freq
      · simp [he, hl, GoMap.get?_set, h]
      · simp [he, hl, GoMap.get?_set, h]

theorem removeFromFreqSet_frame (c : Cache) (key : String) (freq : Int) :
    (removeFromFreqSet c key freq).maxBytes = c.maxBytes ∧
    (removeFromFreqSet c key freq).nBytes = c.nBytes ∧
    (removeFromFreqSet c key freq).cache = c.cache ∧
    (removeFromFreqSet c key freq).freqMap = c.freqMap ∧
    (removeFromFreqSet c key freq).timeMap = c.timeMap ∧
    (removeFromFreqSet c key freq).minFreq = c.minFreq ∧
    (removeFromFreqSet c key freq).OnEvicted = c.OnEvicted ∧
    (removeFromFreqSet c key freq).calls = c.calls := by
  cases hg : c.freqToKeys.get? freq with
  | none => simp [removeFromFreqSet, hg]
  | some g =>
    by_cases he : (GoMap.delete g key).len = 0 <;> simp [removeFromFreqSet, hg, he]

/-- The guard of `updateFreq` never holds: the group of the old frequency has been
deleted by `removeFromFreqSet` as soon as it became empty. -/
theorem updateFreq_eq (c : Cache) (key : String) :
    updateFreq c key =
      setFreq (removeFromFreqSet c key (freqOf c key)) key (freqOf c key + 1) := by
  unfold updateFreq
  simp only
  rw [if_neg]
  rintro ⟨-, h2, h3⟩
  have hne : ¬ freqOf c key = freqOf c key + 1 := by omega
  unfold groupOf at h3
  rw [setFreq_freqToKeys, if_neg hne] at h2 h3
  rw [removeFromFreqSet_freqToKeys, if_pos rfl] at h2 h3
  cases hg : c.freqToKeys.get? (freqOf c key) with
  | none => simp [hg] at h2
  | some g =>
    by_cases he : g.delete key = []
    · simp [hg, he] at h2
    · simp [hg, he, GoMap.len_eq_zero] at h3

theorem updateFreq_frame (c : Cache) (key : String) :
    (updateFreq c key).maxBytes = c.maxBytes ∧ (updateFreq c key).nBytes = c.nBytes ∧
    (updateFreq c key).cache = c.cache ∧ (updateFreq c key).timeMap = c.timeMap ∧
    (updateFreq c key).minFreq = c.minFreq ∧ (updateFreq c key).OnEvicted = c.OnEvicted ∧
    (updateFreq c key).calls = c.calls := by
  rw [updateFreq_eq]
  obtain ⟨a1, a2, a3, a4, a5, a6, a7⟩ :=
    setFreq_frame (removeFromFreqSet c key (freqOf c key)) key (freqOf c key + 1)
  obtain ⟨b1, b2, b3, -, b4, b5, b6, b7⟩ := removeFromFreqSet_frame c key (freqOf c key)
  exact ⟨a1.trans b1, a2.trans b2, a3.trans b3, a4.trans b4, a5.trans b5, a6.trans b6,
    a7.trans b7⟩

theorem updateFreq_freqMap (c : Cache) (key : String) :
    (updateFreq c key).freqMap = c.freqMap.set key (freqOf c key + 1) := by
  rw [updateFreq_eq, setFreq_freqMap, (removeFromFreqSet_frame c key (freqOf c key)).2.2.2.1]

theorem updateFreq_freqToKeys (c : Cache) (key : String) (f : Int) :
    (updateFreq c key).freqToKeys.get? f =
      if f = freqOf c key + 1 then
        some ((groupOf c (freqOf c key + 1)).set key true)
      else if f = freqOf c key then
        (match c.freqToKeys.get? (freqOf c key) with
          | some g => if g.delete key = [] then none else some (g.delete key)
          | none => none)
      else c.freqToKeys.get? f := by
  have hne : ¬ freqOf c key + 1 = freqOf c key := by omega
  rw [updateFreq_eq, setFreq_freqToKeys]
  by_cases h : f = freqOf c key + 1
  · rw [if_pos h, if_pos h]
    unfold groupOf
    rw [removeFromFreqSet_freqToKeys, if_neg hne]
  · rw [if_neg h, if_neg h, removeFromFreqSet_freqToKeys]

/-- Fields of the cache after `removeKey` of a present key. -/
theorem removeKey_present (c : Cache) (key : String) (val : Value)
    (h : c.cache.get? key = some val) :
    removeKey c key =
      { maxBytes := c.maxBytes
        nBytes := c.nBytes - (strLen key + val.Len)
        cache := c.cache.delete key
        freqMap := c.freqMap.delete key
        timeMap := c.timeMap.delete key
        freqToKeys := (removeFromFreqSet c key (freqOf c key)).freqToKeys
        minFreq := c.minFreq
        OnEvicted := c.OnEvicted
        calls := if c.OnEvicted then c.calls ++ [(key, val)] else c.calls } := by
  unfold removeKey
  simp only [h]
  have hfr : ∀ (c0 : Cache) (n : Int),
      removeFromFreqSet { c0 with nBytes := n } key (freqOf c0 key) =
        { removeFromFreqSet c0 key (freqOf c0 key) with nBytes := n } := by
    intro c0 n
    cases hg : c0.freqToKeys.get? (freqOf c0 key) with
    | none => simp [removeFromFreqSet, hg]
    | some g =>
      by_cases he : (GoMap.delete g key).len = 0 <;> simp [removeFromFreqSet, hg, he]
  have hf : freqOf { c with nBytes := c.nBytes - (strLen key + val.Len) } key = freqOf c key := rfl
  rw [hf, hfr]
  obtain ⟨b1, -, b3, b4, b5, b6, b7, b8⟩ := removeFromFreqSet_frame c key (freqOf c key)
  by_cases hcb : c.OnEvicted = true
  · simp [b1, b3, b4, b5, b6, b7, b8, hcb]
  · simp [b1, b3, b4, b5, b6, b7, b8, hcb]

theorem removeKey_absent (c : Cache) (key : String) (h : c.cache.get? key = none) :
    removeKey c key = c := by
  unfold removeKey; simp [h]

/-- Fields of the cache after the first half of `Add` on a key that is not present. -/
theorem store_absent (c : Cache) (key : String) (value : Value) (now : Int)
    (h : c.cache.get? key = none) :
    store c key value now =
      { maxBytes := c.maxBytes
        nBytes := c.nBytes + (strLen key + value.Len)
        cache := c.cache.set key value
        freqMap := c.freqMap.set key 1
        timeMap := c.timeMap.set key now
        freqToKeys := (setFreq c key 1).freqToKeys
        minFreq := 1
        OnEvicted := c.OnEvicted
        calls := c.calls } := by
  unfold store
  simp only [h]
  by_cases hg : c.freqToKeys.get? 1 = none <;> simp [setFreq, hg, groupOf]

/-- The first half of `Add` on a present key: new value, byte delta, `updateFreq`. -/
theorem store_present (c : Cache) (key : String) (value val : Value) (now : Int)
    (h : c.cache.get? key = some val) :
    store c key value now =
      updateFreq { c with nBytes := c.nBytes + (value.Len - val.Len),
                          cache := c.cache.set key value } key := by
  unfold store
  simp only [h]

/-! ## The invariant -/

theorem Inv.new (cap : Int) (cb : Bool) : Inv cap cb (New cap cb) where
  maxBytes_eq := rfl
  callback_eq := rfl
  minFreq_eq := rfl
  nodup := by simp [New, GoMap.keys]
  dom := by intro k; simp [New, GoMap.get?]
  freq_pos := by intro k f h; simp [New, GoMap.get?] at h
  group_freq := by intro f g k h; simp [New, GoMap.get?] at h
  bytes := by simp [New, bytesOf]
  freq_group := by intro k f h; simp [New, GoMap.get?] at h
  group_nonempty := by intro f g h; simp [New, GoMap.get?] at h
  time_dom := by intro k; simp [New, GoMap.get?]

theorem freqOf_of_get? {c : Cache} {k : String} {f : Int} (h : c.freqMap.get? k = some f) :
    freqOf c k = f := by
  simp [freqOf, h]

theorem Inv.updateFreq {cap : Int} {cb : Bool} {c : Cache} (hc : Inv cap cb c) (key : String)
    (hk : c.cache.get? key ≠ none) : Inv cap cb (updateFreq c key) := by
  obtain ⟨a1, a2, a3, a4, a5, a6, -⟩ := updateFreq_frame c key
  have hfm := updateFreq_freqMap c key
  obtain ⟨f0, hf0⟩ := Option.ne_none_iff_exists'.1 ((hc.dom key).1 hk)
  have hold : freqOf c key = f0 := freqOf_of_get? hf0
  refine ⟨a1.trans hc.maxBytes_eq, a6.trans hc.callback_eq, a5.trans hc.minFreq_eq,
    by rw [a3]; exact hc.nodup, ?_, ?_, ?_, by rw [a2, a3]; exact hc.bytes, ?_, ?_, ?_⟩
  · intro k
    rw [a3, hfm, GoMap.get?_set]
    by_cases h : k = key
    · subst h; simp [hk]
    · simp [h, hc.dom k]
  · intro k f
    rw [hfm, GoMap.get?_set]
    by_cases h : k = key
    · subst h
      have := hc.freq_pos k f0 hf0
      simp only [if_true, Option.some.injEq]
      intro e; omega
    · simp only [h, if_false]
      exact hc.freq_pos k f
  · intro f g k hg hgk
    rw [updateFreq_freqToKeys] at hg
    rw [hfm, GoMap.get?_set]
    by_cases h1 : f = freqOf c key + 1
    · rw [if_pos h1] at hg
      simp only [Option.some.injEq] at hg
      subst hg
      rw [GoMap.get?_set] at hgk
      by_cases hkk : k = key
      · simp [hkk, h1]
      · rw [if_neg hkk] at hgk ⊢
        unfold groupOf at hgk
        cases hgg : c.freqToKeys.get? (freqOf c key + 1) with
        | none => simp [hgg, GoMap.get?] at hgk
        | some g0 =>
          rw [hgg] at hgk
          rw [h1]
          exact hc.group_freq _ g0 k hgg hgk
    · rw [if_neg h1] at hg
      by_cases h2 : f = freqOf c key
      · rw [if_pos h2] at hg
        cases hgg : c.freqToKeys.get? (freqOf c key) with
        | none => simp [hgg] at hg
        | some g0 =>
          rw [hgg] at hg
          by_cases he : g0.delete key = []
          · simp [he] at hg
          · simp only [he, if_false, Option.some.injEq] at hg
            subst hg
            rw [GoMap.get?_delete] at hgk
            by_cases hkk : k = key
            · simp [hkk] at hgk
            · rw [if_neg hkk] at hgk ⊢
              rw [h2]
              exact hc.group_freq _ g0 k hgg hgk
      · rw [if_neg h2] at hg
        have hkf := hc.group_freq f g k hg hgk
        by_cases hkk : k = key
        · subst hkk
          exact absurd (freqOf_of_get? hkf).symm h2
        · rw [if_neg hkk]; exact hkf
  · intro k f hk
    rw [hfm, GoMap.get?_set] at hk
    rw [updateFreq_freqToKeys]
    by_cases hkk : k = key
    · rw [if_pos hkk] at hk
      simp only [Option.some.injEq] at hk
      rw [if_pos hk.symm]
      exact ⟨_, rfl, by rw [GoMap.get?_set, if_pos hkk]; simp⟩
    · rw [if_neg hkk] at hk
      obtain ⟨g, hg, hgk⟩ := hc.freq_group k f hk
      by_cases h1 : f = freqOf c key + 1
      · rw [if_pos h1]
        refine ⟨_, rfl, ?_⟩
        rw [GoMap.get?_set, if_neg hkk]
        unfold groupOf
        rw [← h1, hg]
        exact hgk
      · rw [if_neg h1]
        by_cases h2 : f = freqOf c key
        · have hg2 : c.freqToKeys.get? (freqOf c key) = some g := h2 ▸ hg
          have hgk2 : (g.delete key).get? k ≠ none := by
            rw [GoMap.get?_delete, if_neg hkk]; exact hgk
          have hne : g.delete key ≠ [] := GoMap.ne_nil_of_get? _ _ hgk2
          rw [if_pos h2, hg2]
          simp only [hne, if_false]
          exact ⟨_, rfl, hgk2⟩
        · rw [if_neg h2]
          exact ⟨g, hg, hgk⟩
  · intro f g hg
    rw [updateFreq_freqToKeys] at hg
    by_cases h1 : f = freqOf c key + 1
    · rw [if_pos h1] at hg
      simp only [Option.some.injEq] at hg
      rw [← hg]
      exact GoMap.set_ne_nil _ _ _
    · rw [if_neg h1] at hg
      by_cases h2 : f = freqOf c key
      · rw [if_pos h2] at hg
        cases hgg : c.freqToKeys.get? (freqOf c key) with
        | none => simp [hgg] at hg
        | some g0 =>
          rw [hgg] at hg
          by_cases he : g0.delete key = []
          · simp [he] at hg
          · simp only [he, if_false, Option.some.injEq] at hg
            rw [← hg]; exact he
      · rw [if_neg h2] at hg
        exact hc.group_nonempty f g hg
  · intro k
    rw [a3, a4]
    exact hc.time_dom k

theorem Inv.removeKey {cap : Int} {cb : Bool} {c : Cache} (hc : Inv cap cb c) (key : String) :
    Inv cap cb (removeKey c key) := by
  cases hv : c.cache.get? key with
  | none => rw [removeKey_absent c key hv]; exact hc
  | some val =>
    rw [removeKey_present c key val hv]
    refine ⟨hc.maxBytes_eq, hc.callback_eq, hc.minFreq_eq, GoMap.nodup_delete _ _ hc.nodup,
      ?_, ?_, ?_, ?_, ?_, ?_, ?_⟩
    · intro k
      simp only [GoMap.get?_delete]
      by_cases h : k = key
      · simp [h]
      · simp [h, hc.dom k]
    · intro k f
      simp only [GoMap.get?_delete]
      by_cases h : k = key
      · simp [h]
      · simp only [h, if_false]; exact hc.freq_pos k f
    · intro f g k hg hgk
      simp only at hg
      rw [removeFromFreqSet_freqToKeys] at hg
      simp only [GoMap.get?_delete]
      by_cases h2 : f = freqOf c key
      · rw [if_pos h2] at hg
        cases hgg : c.freqToKeys.get? (freqOf c key) with
        | none => simp [hgg] at hg
        | some g0 =>
          rw [hgg] at hg
          by_cases he : g0.delete key = []
          · simp [he] at hg
          · simp only [he, if_false, Option.some.injEq] at hg
            subst hg
            rw [GoMap.get?_delete] at hgk
            by_cases hkk : k = key
            · simp [hkk] at hgk
            · rw [if_neg hkk] at hgk ⊢
              rw [h2]
              exact hc.group_freq _ g0 k hgg hgk
      · rw [if_neg h2] at hg
        have hkf := hc.group_freq f g k hg hgk
        by_cases hkk : k = key
        · subst hkk
          exact absurd (freqOf_of_get? hkf).symm h2
        · rw [if_neg hkk]; exact hkf
    · simp only
      rw [bytesOf_delete _ _ val hc.nodup hv, hc.bytes]
    · intro k f hk
      simp only [GoMap.get?_delete] at hk
      simp only
      rw [removeFromFreqSet_freqToKeys]
      by_cases hkk : k = key
      · simp [hkk] at hk
      · rw [if_neg hkk] at hk
        obtain ⟨g, hg, hgk⟩ := hc.freq_group k f hk
        by_cases h2 : f = freqOf c key
        · have hg2 : c.freqToKeys.get? (freqOf c key) = some g := h2 ▸ hg
          have hgk2 : (g.delete key).get? k ≠ none := by
            rw [GoMap.get?_delete, if_neg hkk]; exact hgk
          have hne : g.delete key ≠ [] := GoMap.ne_nil_of_get? _ _ hgk2
          rw [if_pos h2, hg2]
          simp only [hne, if_false]
          exact ⟨_, rfl, hgk2⟩
        · rw [if_neg h2]
          exact ⟨g, hg, hgk⟩
    · intro f g hg
      simp only at hg
      rw [removeFromFreqSet_freqToKeys] at hg
      by_cases h2 : f = freqOf c key
      · rw [if_pos h2] at hg
        cases hgg : c.freqToKeys.get? (freqOf c key) with
        | none => simp [hgg] at hg
        | some g0 =>
          rw [hgg] at hg
          by_cases he : g0.delete key = []
          · simp [he] at hg
          · simp only [he, if_false, Option.some.injEq] at hg
            rw [← hg]; exact he
      · rw [if_neg h2] at hg
        exact hc.group_nonempty f g hg
    · intro k
      simp only [GoMap.get?_delete]
      by_cases h : k = key
      · simp [h]
      · simp [h, hc.time_dom k]

theorem Inv.store {cap : Int} {cb : Bool} {c : Cache} (hc : Inv cap cb c) (key : String)
    (value : Value) (now : Int) : Inv cap cb (store c key value now) := by
  cases hv : c.cache.get? key with
  | some val =>
    rw [store_present c key value val now hv]
    apply Inv.updateFreq
    · refine ⟨hc.maxBytes_eq, hc.callback_eq, hc.minFreq_eq, GoMap.nodup_set _ _ _ hc.nodup,
        ?_, hc.freq_pos, hc.group_freq, ?_, hc.freq_group, hc.group_nonempty, ?_⟩
      · intro k
        simp only [GoMap.get?_set]
        by_cases h : k = key
        · subst h
          have := (hc.dom k).1 (by simp [hv])
          simp [this]
        · simp [h, hc.dom k]
      · simp only
        rw [bytesOf_set_old _ _ _ val hv, hc.bytes]
      · intro k
        simp only [GoMap.get?_set]
        by_cases h : k = key
        · subst h
          have := (hc.time_dom k).1 (by simp [hv])
          simp [this]
        · simp [h, hc.time_dom k]
    · simp [GoMap.get?_set]
  | none =>
    rw [store_absent c key value now hv]
    have hfk : c.freqMap.get? key = none := by
      by_contra h
      exact (hc.dom key).2 h hv
    refine ⟨hc.maxBytes_eq, hc.callback_eq, rfl, GoMap.nodup_set _ _ _ hc.nodup, ?_, ?_, ?_, ?_,
      ?_, ?_, ?_⟩
    · intro k
      simp only [GoMap.get?_set]
      by_cases h : k = key
      · simp [h]
      · simp [h, hc.dom k]
    · intro k f
      simp only [GoMap.get?_set]
      by_cases h : k = key
      · simp only [h, if_true, Option.some.injEq]
        intro e; omega
      · simp only [h, if_false]; exact hc.freq_pos k f
    · intro f g k hg hgk
      simp only at hg
      rw [setFreq_freqToKeys] at hg
      simp only [GoMap.get?_set]
      by_cases h1 : f = 1
      · rw [if_pos h1] at hg
        simp only [Option.some.injEq] at hg
        subst hg
        rw [GoMap.get?_set] at hgk
        by_cases hkk : k = key
        · simp [hkk, h1]
        · rw [if_neg hkk] at hgk ⊢
          unfold groupOf at hgk
          cases hgg : c.freqToKeys.get? 1 with
          | none => simp [hgg, GoMap.get?] at hgk
          | some g0 =>
            rw [hgg] at hgk
            rw [h1]
            exact hc.group_freq _ g0 k hgg hgk
      · rw [if_neg h1] at hg
        have hkf := hc.group_freq f g k hg hgk
        by_cases hkk : k = key
        · subst hkk
          rw [hfk] at hkf
          exact absurd hkf (by simp)
        · rw [if_neg hkk]; exact hkf
    · simp only
      rw [bytesOf_set_new _ _ _ hv, hc.bytes]
    · intro k f hk
      simp only [GoMap.get?_set] at hk
      simp only
      rw [setFreq_freqToKeys]
      by_cases hkk : k = key
      · rw [if_pos hkk] at hk
        simp only [Option.some.injEq] at hk
        rw [if_pos hk.symm]
        exact ⟨_, rfl, by rw [GoMap.get?_set, if_pos hkk]; simp⟩
      · rw [if_neg hkk] at hk
        obtain ⟨g, hg, hgk⟩ := hc.freq_group k f hk
        by_cases h1 : f = 1
        · rw [if_pos h1]
          refine ⟨_, rfl, ?_⟩
          rw [GoMap.get?_set, if_neg hkk]
          unfold groupOf
          rw [← h1, hg]
          exact hgk
        · rw [if_neg h1]
          exact ⟨g, hg, hgk⟩
    · intro f g hg
      simp only at hg
      rw [setFreq_freqToKeys] at hg
      by_cases h1 : f = 1
      · rw [if_pos h1] at hg
        simp only [Option.some.injEq] at hg
        rw [← hg]
        exact GoMap.set_ne_nil _ _ _
      · rw [if_neg h1] at hg
        exact hc.group_nonempty f g hg
    · intro k
      simp only [GoMap.get?_set]
      by_cases h : k = key
      · simp [h]
      · simp [h, hc.time_dom k]

theorem Inv.removeOldest {cap : Int} {cb : Bool} {c : Cache} (hc : Inv cap cb c)
    (iter : List String → List String) : Inv cap cb (removeOldest iter c) := by
  unfold lfu.removeOldest
  split
  · exact hc
  · simp only
    split
    · exact hc
    · exact hc.removeKey _

theorem Inv.get {cap : Int} {cb : Bool} {c : Cache} (hc : Inv cap cb c) (key : String) :
    Inv cap cb (Get c key).2.2 := by
  unfold Get
  cases hv : c.cache.get? key with
  | none => exact hc
  | some val => exact hc.updateFreq key (by simp [hv])

theorem Reachable.inv {cap : Int} {cb : Bool} {c : Cache} (h : Reachable cap cb c) :
    Inv cap cb c := by
  induction h with
  | init => exact Inv.new cap cb
  | get key _ ih => exact ih.get key
  | store key value now _ ih => exact ih.store key value now
  | evict iter _ _ _ ih => exact ih.removeOldest iter

/-! ## The eviction loop -/

theorem evictLoop_inv {cap : Int} {cb : Bool} (iter : List String → List String) :
    ∀ (fuel : Nat) (c c' : Cache), Inv cap cb c → evictLoop iter fuel c = some c' →
      Inv cap cb c' ∧ ¬ overCapacity c' := by
  intro fuel
  induction fuel with
  | zero =>
    intro c c' hc h
    by_cases hg : overCapacity c
    · simp [evictLoop, hg] at h
    · simp only [evictLoop, hg, if_false, Option.some.injEq] at h
      subst h; exact ⟨hc, hg⟩
  | succ n ih =>
    intro c c' hc h
    by_cases hg : overCapacity c
    · simp only [evictLoop, hg, if_true] at h
      exact ih _ _ (hc.removeOldest iter) h
    · simp only [evictLoop, hg, if_false, Option.some.injEq] at h
      subst h; exact ⟨hc, hg⟩

theorem evictLoop_reachable {cap : Int} {cb : Bool} (iter : List String → List String)
    (hi : ValidIter iter) :
    ∀ (fuel : Nat) (c c' : Cache), Reachable cap cb c → evictLoop iter fuel c = some c' →
      Reachable cap cb c' := by
  intro fuel
  induction fuel with
  | zero =>
    intro c c' hc h
    by_cases hg : overCapacity c
    · simp [evictLoop, hg] at h
    · simp only [evictLoop, hg, if_false, Option.some.injEq] at h
      subst h; exact hc
  | succ n ih =>
    intro c c' hc h
    by_cases hg : overCapacity c
    · simp only [evictLoop, hg, if_true] at h
      exact ih _ _ (hc.evict iter hi hg) h
    · simp only [evictLoop, hg, if_false, Option.some.injEq] at h
      subst h; exact hc

theorem Add_reachable {cap : Int} {cb : Bool} {c c' : Cache} {fuel : Nat}
    {iter : List String → List String} {key : String} {value : Value} {now : Int}
    (hc : Reachable cap cb c) (hi : ValidIter iter)
    (h : Add fuel iter c key value now = some c') : Reachable cap cb c' :=
  evictLoop_reachable iter hi fuel _ _ (hc.store key value now) h

theorem run_reachable {cap : Int} {cb : Bool} (fuel : Nat) :
    ∀ (ops : List Op) (c c' : Cache), Reachable cap cb c → ValidOps ops →
      run fuel c ops = some c' → Reachable cap cb c' := by
  intro ops
  induction ops with
  | nil =>
    intro c c' hc _ h
    simp only [run, Option.some.injEq] at h
    subst h; exact hc
  | cons op ops ih =>
    intro c c' hc hv h
    cases op with
    | get key =>
      simp only [run, step, Option.some_bind] at h
      exact ih _ _ (hc.get key) hv h
    | add key value now iter =>
      simp only [run, step] at h
      cases ha : Add fuel iter c key value now with
      | none => simp [ha] at h
      | some c1 =>
        rw [ha] at h
        simp only [Option.some_bind] at h
        exact ih _ _ (Add_reachable hc hv.1 ha) hv.2 h

/-- When the guard holds and `removeOldest` leaves the cache as it is, the loop never ends. -/
theorem evictLoop_stuck (iter : List String → List String) (c : Cache)
    (hg : overCapacity c) (hs : removeOldest iter c = c) :
    ∀ fuel, evictLoop iter fuel c = none := by
  intro fuel
  induction fuel with
  | zero => simp [evictLoop, hg]
  | succ n ih => simp [evictLoop, hg, hs, ih]

/-- When the guard does not hold the loop ends at once. -/
theorem evictLoop_done (iter : List String → List String) (fuel : Nat) (c : Cache)
    (hg : ¬ overCapacity c) : evictLoop iter fuel c = some c := by
  cases fuel <;> simp [evictLoop, hg]

/-- An eviction step only removes entries of the cache map. -/
theorem removeOldest_cache_get? (iter : List String → List String) (c : Cache) (k : String)
    (h : (removeOldest iter c).cache.get? k ≠ none) :
    (removeOldest iter c).cache.get? k = c.cache.get? k := by
  unfold removeOldest at h ⊢
  by_cases h1 : c.cache.len = 0
  · simp [h1]
  · by_cases h2 : (groupOf c c.minFreq).len = 0
    · simp [h1, h2]
    · simp only [h1, h2, if_false] at h ⊢
      cases hv : c.cache.get? (scan c (iter (groupOf c c.minFreq).keys)).1 with
      | none => rw [removeKey_absent _ _ hv]
      | some val =>
        rw [removeKey_present _ _ val hv] at h ⊢
        simp only [GoMap.get?_delete] at h ⊢
        by_cases hk : k = (scan c (iter (groupOf c c.minFreq).keys)).1
        · simp [hk] at h
        · simp [hk]

theorem evictLoop_cache_get? (iter : List String → List String) (k : String) :
    ∀ (fuel : Nat) (c c' : Cache), evictLoop iter fuel c = some c' →
      c'.cache.get? k ≠ none → c'.cache.get? k = c.cache.get? k := by
  intro fuel
  induction fuel with
  | zero =>
    intro c c' h _
    by_cases hg : overCapacity c
    · simp [evictLoop, hg] at h
    · simp only [evictLoop, hg, if_false, Option.some.injEq] at h
      subst h; rfl
  | succ n ih =>
    intro c c' h hk
    by_cases hg : overCapacity c
    · simp only [evictLoop, hg, if_true] at h
      have h1 := ih _ _ h hk
      rw [h1]
      exact removeOldest_cache_get? iter c k (by rw [← h1]; exact hk)
    · simp only [evictLoop, hg, if_false, Option.some.injEq] at h
      subst h; rfl

theorem store_cache_get? (c : Cache) (key : String) (value : Value) (now : Int) (k : String) :
    (store c key value now).cache.get? k = if k = key then some value else c.cache.get? k := by
  cases hv : c.cache.get? key with
  | none => rw [store_absent c key value now hv]; simp only [GoMap.get?_set]
  | some val =>
    rw [store_present c key value val now hv, (updateFreq_frame _ key).2.2.1]
    simp only [GoMap.get?_set]

theorem store_maxBytes (c : Cache) (key : String) (value : Value) (now : Int) :
    (store c key value now).maxBytes = c.maxBytes := by
  cases hv : c.cache.get? key with
  | none => rw [store_absent c key value now hv]
  | some val => rw [store_present c key value val now hv, (updateFreq_frame _ key).1]

theorem store_cache (c : Cache) (key : String) (value : Value) (now : Int) :
    (store c key value now).cache = c.cache.set key value := by
  cases hv : c.cache.get? key with
  | none => rw [store_absent c key value now hv]
  | some val => rw [store_present c key value val now hv, (updateFreq_frame _ key).2.2.1]

theorem store_calls (c : Cache) (key : String) (value : Value) (now : Int) :
    (store c key value now).calls = c.calls := by
  cases hv : c.cache.get? key with
  | none => rw [store_absent c key value now hv]
  | some val => rw [store_present c key value val now hv, (updateFreq_frame _ key).2.2.2.2.2.2]

/-- With capacity 0 the eviction loop is never entered: `Add` is its first half. -/
theorem Add_unbounded (fuel : Nat) (iter : List String → List String) (c : Cache)
    (key : String) (value : Value) (now : Int) (h0 : c.maxBytes = 0) :
    Add fuel iter c key value now = some (store c key value now) := by
  apply evictLoop_done
  unfold overCapacity
  simp [store_maxBytes, h0]

/-! ## Frequencies -/

theorem updateFreq_freqOf (c : Cache) (key k : String) :
    freqOf (updateFreq c key) k = if k = key then freqOf c key + 1 else freqOf c k := by
  unfold freqOf
  rw [updateFreq_freqMap, GoMap.get?_set]
  by_cases h : k = key
  · simp [h, freqOf]
  · simp [h]

theorem Get_present (c : Cache) (key : String) (h : c.cache.get? key ≠ none) :
    (Get c key).2.2 = updateFreq c key := by
  unfold Get
  cases hv : c.cache.get? key with
  | none => exact absurd hv h
  | some val => rfl

theorem Get_cache (c : Cache) (key : String) : (Get c key).2.2.cache = c.cache := by
  unfold Get
  cases hv : c.cache.get? key with
  | none => rfl
  | some val => exact (updateFreq_frame c key).2.2.1

theorem Get_calls (c : Cache) (key : String) : (Get c key).2.2.calls = c.calls := by
  unfold Get
  cases hv : c.cache.get? key with
  | none => rfl
  | some val => exact (updateFreq_frame c key).2.2.2.2.2.2

theorem store_freqOf_present (c : Cache) (key : String) (value : Value) (now : Int)
    (k : String) (h : c.cache.get? key ≠ none) :
    freqOf (store c key value now) k = if k = key then freqOf c key + 1 else freqOf c k := by
  cases hv : c.cache.get? key with
  | none => exact absurd hv h
  | some val =>
    rw [store_present c key value val now hv, updateFreq_freqOf]
    rfl

theorem store_freqOf_absent (c : Cache) (key : String) (value : Value) (now : Int)
    (k : String) (h : c.cache.get? key = none) :
    freqOf (store c key value now) k = if k = key then 1 else freqOf c k := by
  rw [store_absent c key value now h]
  unfold freqOf
  simp only [GoMap.get?_set]
  by_cases hk : k = key
  · simp [hk]
  · simp [hk]

theorem removeOldest_freqOf (iter : List String → List String) (c : Cache) (k : String)
    (h : (removeOldest iter c).cache.get? k ≠ none) :
    freqOf (removeOldest iter c) k = freqOf c k := by
  unfold removeOldest at h ⊢
  by_cases h1 : c.cache.len = 0
  · simp [h1]
  · by_cases h2 : (groupOf c c.minFreq).len = 0
    · simp [h1, h2]
    · simp only [h1, h2, if_false] at h ⊢
      cases hv : c.cache.get? (scan c (iter (groupOf c c.minFreq).keys)).1 with
      | none => rw [removeKey_absent _ _ hv]
      | some val =>
        rw [removeKey_present _ _ val hv] at h ⊢
        simp only [GoMap.get?_delete] at h
        unfold freqOf
        simp only [GoMap.get?_delete]
        by_cases hk : k = (scan c (iter (groupOf c c.minFreq).keys)).1
        · simp [hk] at h
        · simp [hk]

theorem evictLoop_freqOf (iter : List String → List String) (k : String) :
    ∀ (fuel : Nat) (c c' : Cache), evictLoop iter fuel c = some c' →
      c'.cache.get? k ≠ none → freqOf c' k = freqOf c k := by
  intro fuel
  induction fuel with
  | zero =>
    intro c c' h _
    by_cases hg : overCapacity c
    · simp [evictLoop, hg] at h
    · simp only [evictLoop, hg, if_false, Option.some.injEq] at h
      subst h; rfl
  | succ n ih =>
    intro c c' h hk
    by_cases hg : overCapacity c
    · simp only [evictLoop, hg, if_true] at h
      rw [ih _ _ h hk]
      apply removeOldest_freqOf
      rw [← evictLoop_cache_get? iter k n _ _ h hk]
      exact hk
    · simp only [evictLoop, hg, if_false, Option.some.injEq] at h
      subst h; rfl

theorem getTimes_freqOf (key : String) :
    ∀ (n : Nat) (c : Cache), c.cache.get? key ≠ none →
      freqOf (getTimes n c key) key = freqOf c key + n := by
  intro n
  induction n with
  | zero => intro c _; simp [getTimes]
  | succ n ih =>
    intro c hk
    have hk1 : (Get c key).2.2.cache.get? key ≠ none := by rw [Get_cache]; exact hk
    simp only [getTimes]
    rw [ih _ hk1, Get_present c key hk, updateFreq_freqOf, if_pos rfl]
    push_cast
    ring

/-! ## Unbounded mode -/

theorem step_unbounded {cb : Bool} (fuel : Nat) (c : Cache) (op : Op) (hc : Inv 0 cb c) :
    ∃ c', step fuel c op = some c' ∧ Inv 0 cb c' ∧ c'.calls = c.calls ∧
      ∀ k, c'.cache.get? k ≠ none ↔ (c.cache.get? k ≠ none ∨ k ∈ addedKeys [op]) := by
  cases op with
  | get key =>
    refine ⟨(Get c key).2.2, rfl, hc.get key, Get_calls c key, ?_⟩
    intro k
    simp [Get_cache, addedKeys]
  | add key value now iter =>
    refine ⟨store c key value now, Add_unbounded fuel iter c key value now hc.maxBytes_eq,
      hc.store key value now, store_calls c key value now, ?_⟩
    intro k
    rw [store_cache_get?]
    by_cases h : k = key
    · simp [h, addedKeys]
    · simp [h, addedKeys]

theorem run_unbounded {cb : Bool} (fuel : Nat) :
    ∀ (ops : List Op) (c : Cache), Inv 0 cb c →
      ∃ c', run fuel c ops = some c' ∧ Inv 0 cb c' ∧ c'.calls = c.calls ∧
        ∀ k, c'.cache.get? k ≠ none ↔ (c.cache.get? k ≠ none ∨ k ∈ addedKeys ops) := by
  intro ops
  induction ops with
  | nil =>
    intro c hc
    exact ⟨c, rfl, hc, rfl, by intro k; simp [addedKeys]⟩
  | cons op ops ih =>
    intro c hc
    obtain ⟨c1, h1, hi1, hc1, hk1⟩ := step_unbounded fuel c op hc
    obtain ⟨c2, h2, hi2, hc2, hk2⟩ := ih c1 hi1
    refine ⟨c2, by simp [run, h1, h2], hi2, hc2.trans hc1, ?_⟩
    intro k
    rw [hk2 k, hk1 k]
    cases op with
    | get key => simp [addedKeys]
    | add key value now iter =>
      simp only [addedKeys, List.mem_cons, List.not_mem_nil, or_false]
      tauto

/-! ## The scan of `removeOldest` -/

theorem scan_fold_mem (c : Cache) :
    ∀ (l : List String) (acc : String × Int),
      (l.foldl (scanStep c) acc).1 = acc.1 ∨ (l.foldl (scanStep c) acc).1 ∈ l := by
  intro l
  induction l with
  | nil => intro acc; simp
  | cons a l ih =>
    intro acc
    simp only [List.foldl_cons, List.mem_cons]
    rcases ih (scanStep c acc a) with h | h
    · rw [h]
      unfold scanStep
      by_cases hc : acc.1 = "" ∨ timeOf c a < acc.2
      · simp [hc]
      · simp [hc]
    · exact Or.inr (Or.inr h)

/-- The key chosen by the scan is one of the keys visited. -/
theorem scan_mem (c : Cache) (l : List String) (h : l ≠ []) : (scan c l).1 ∈ l := by
  cases l with
  | nil => exact absurd rfl h
  | cons a l =>
    unfold scan
    simp only [List.foldl_cons, List.mem_cons]
    have h0 : scanStep c ("", 0) a = (a, timeOf c a) := by simp [scanStep]
    rw [h0]
    rcases scan_fold_mem c l (a, timeOf c a) with h | h
    · exact Or.inl h
    · exact Or.inr h

/-- Either `removeOldest` changes nothing, or it removes a key of the group at `minFreq`. -/
theorem removeOldest_cases (iter : List String → List String) (hi : ValidIter iter)
    (c : Cache) :
    removeOldest iter c = c ∨
      ∃ k, k ∈ (groupOf c c.minFreq).keys ∧ removeOldest iter c = removeKey c k := by
  unfold removeOldest
  by_cases h1 : c.cache.len = 0
  · simp [h1]
  · by_cases h2 : (groupOf c c.minFreq).len = 0
    · simp [h1, h2]
    · right
      simp only [h1, h2, if_false]
      refine ⟨_, ?_, rfl⟩
      apply (hi _).subset
      apply scan_mem
      intro he
      have hp := (hi (groupOf c c.minFreq).keys)
      rw [he] at hp
      have := hp.symm.eq_nil
      rw [GoMap.len_eq_zero] at h2
      apply h2
      simpa [GoMap.keys] using this

theorem Cache.eq_of_fields {a b : Cache} (h1 : a.maxBytes = b.maxBytes)
    (h2 : a.nBytes = b.nBytes) (h3 : a.cache = b.cache) (h4 : a.freqMap = b.freqMap)
    (h5 : a.timeMap = b.timeMap) (h6 : a.freqToKeys = b.freqToKeys)
    (h7 : a.minFreq = b.minFreq) (h8 : a.OnEvicted = b.OnEvicted) (h9 : a.calls = b.calls) :
    a = b := by
  cases a; cases b; simp_all

theorem GoMap.mem_set {κ ν : Type} [DecidableEq κ] (m : GoMap κ ν) (k : κ) (v : ν)
    (e : κ × ν) (h : e ∈ GoMap.set m k v) : e ∈ m ∨ e = (k, v) := by
  induction m with
  | nil =>
    simp only [GoMap.set, List.mem_singleton] at h
    exact Or.inr h
  | cons a m ih =>
    obtain ⟨a1, a2⟩ := a
    by_cases h1 : a1 = k
    · simp only [GoMap.set, h1, if_true, List.mem_cons] at h
      rcases h with h | h
      · exact Or.inr h
      · exact Or.inl (List.mem_cons_of_mem _ h)
    · simp only [GoMap.set, h1, if_false, List.mem_cons] at h
      rcases h with h | h
      · exact Or.inl (h ▸ List.mem_cons_self _ _)
      · rcases ih h with h2 | h2
        · exact Or.inl (List.mem_cons_of_mem _ h2)
        · exact Or.inr h2

theorem GoMap.mem_delete {κ ν : Type} [DecidableEq κ] (m : GoMap κ ν) (k : κ)
    (e : κ × ν) (h : e ∈ GoMap.delete m k) : e ∈ m ∧ e.1 ≠ k := by
  induction m with
  | nil => simp [GoMap.delete] at h
  | cons a m ih =>
    obtain ⟨a1, a2⟩ := a
    by_cases h1 : a1 = k
    · simp only [GoMap.delete, h1, if_true] at h
      exact ⟨List.mem_cons_of_mem _ (ih h).1, (ih h).2⟩
    · simp only [GoMap.delete, h1, if_false, List.mem_cons] at h
      rcases h with h | h
      · subst h
        exact ⟨List.mem_cons_self _ _, h1⟩
      · exact ⟨List.mem_cons_of_mem _ (ih h).1, (ih h).2⟩

theorem GoMap.mem_of_get? {κ ν : Type} [DecidableEq κ] (m : GoMap κ ν) (k : κ) (v : ν)
    (h : GoMap.get? m k = some v) : (k, v) ∈ m := by
  induction m with
  | nil => simp [GoMap.get?] at h
  | cons a m ih =>
    obtain ⟨a1, a2⟩ := a
    by_cases h1 : a1 = k
    · simp only [GoMap.get?, h1, if_true, Option.some.injEq] at h
      subst h1; subst h
      exact List.mem_cons_self _ _
    · simp only [GoMap.get?, h1, if_false] at h
      exact List.mem_cons_of_mem _ (ih h)

theorem GoMap.get?_of_mem {κ ν : Type} [DecidableEq κ] (m : GoMap κ ν) (e : κ × ν)
    (hn : (GoMap.keys m).Nodup) (h : e ∈ m) : GoMap.get? m e.1 = some e.2 := by
  induction m with
  | nil => simp at h
  | cons a m ih =>
    obtain ⟨a1, a2⟩ := a
    have hn2 : a1 ∉ GoMap.keys m ∧ (GoMap.keys m).Nodup := by simpa [GoMap.keys] using hn
    rcases List.mem_cons.1 h with h | h
    · subst h
      simp [GoMap.get?]
    · have hne : a1 ≠ e.1 := by
        intro heq
        apply hn2.1
        rw [heq]
        exact List.mem_map_of_mem Prod.fst h
      simp only [GoMap.get?, hne, if_false]
      exact ih hn2.2 h

theorem groupOf_nodup (c : Cache) (f : Int) (h : ∀ e ∈ c.freqToKeys, e.2.keys.Nodup) :
    (groupOf c f).keys.Nodup := by
  unfold groupOf
  cases hg : c.freqToKeys.get? f with
  | none => simp [GoMap.keys]
  | some g => exact h (f, g) (GoMap.mem_of_get? _ _ _ hg)

theorem Distinct.of_fields {a b : Cache} (h : Distinct a) (h1 : b.freqMap = a.freqMap)
    (h2 : b.timeMap = a.timeMap) (h3 : b.freqToKeys = a.freqToKeys) : Distinct b :=
  ⟨h1 ▸ h.freqMap_nodup, h2 ▸ h.timeMap_nodup, h3 ▸ h.freqToKeys_nodup, h3 ▸ h.groups_nodup⟩

theorem Distinct.of_setFreq {c : Cache} (h : Distinct c) (key : String) (freq : Int) :
    Distinct (setFreq c key freq) := by
  obtain ⟨-, -, -, a4, -, -, -⟩ := setFreq_frame c key freq
  refine ⟨?_, a4 ▸ h.timeMap_nodup, ?_, ?_⟩
  · rw [setFreq_freqMap]
    exact GoMap.nodup_set _ _ _ h.freqMap_nodup
  · unfold lfu.setFreq
    by_cases hg : c.freqToKeys.get? freq = none
    · simp only [hg, if_true]
      exact GoMap.nodup_set _ _ _ (GoMap.nodup_set _ _ _ h.freqToKeys_nodup)
    · simp only [hg, if_false]
      exact GoMap.nodup_set _ _ _ h.freqToKeys_nodup
  · intro e he
    have hgn : (GoMap.set (groupOf c freq) key true).keys.Nodup :=
      GoMap.nodup_set _ _ _ (groupOf_nodup c freq h.groups_nodup)
    unfold lfu.setFreq at he
    by_cases hg : c.freqToKeys.get? freq = none
    · simp only [hg, if_true] at he
      rcases GoMap.mem_set _ _ _ _ he with he | he
      · rcases GoMap.mem_set _ _ _ _ he with he | he
        · exact h.groups_nodup e he
        · rw [he]; simp [GoMap.keys]
      · rw [he]
        simp only [groupOf, GoMap.get?_set, if_true, Option.getD_some]
        exact GoMap.nodup_set _ _ _ (by simp [GoMap.keys])
    · simp only [hg, if_false] at he
      rcases GoMap.mem_set _ _ _ _ he with he | he
      · exact h.groups_nodup e he
      · rw [he]; exact hgn

theorem Distinct.of_removeFromFreqSet {c : Cache} (h : Distinct c) (key : String) (freq : Int) :
    Distinct (removeFromFreqSet c key freq) := by
  obtain ⟨-, -, -, a4, a5, -, -, -⟩ := removeFromFreqSet_frame c key freq
  refine ⟨a4 ▸ h.freqMap_nodup, a5 ▸ h.timeMap_nodup, ?_, ?_⟩
  · unfold lfu.removeFromFreqSet
    cases hg : c.freqToKeys.get? freq with
    | none => exact h.freqToKeys_nodup
    | some g =>
      simp only
      by_cases he : (GoMap.delete g key).len = 0
      · simp only [he, if_true]
        exact GoMap.nodup_delete _ _ (GoMap.nodup_set _ _ _ h.freqToKeys_nodup)
      · simp only [he, if_false]
        exact GoMap.nodup_set _ _ _ h.freqToKeys_nodup
  · intro e hmem
    unfold lfu.removeFromFreqSet at hmem
    cases hg : c.freqToKeys.get? freq with
    | none =>
      rw [hg] at hmem
      exact h.groups_nodup e hmem
    | some g =>
      rw [hg] at hmem
      simp only at hmem
      have hgn : (GoMap.delete g key).keys.Nodup :=
        GoMap.nodup_delete _ _ (h.groups_nodup (freq, g) (GoMap.mem_of_get? _ _ _ hg))
      by_cases he : (GoMap.delete g key).len = 0
      · simp only [he, if_true] at hmem
        rcases GoMap.mem_set _ _ _ _ (GoMap.mem_delete _ _ _ hmem).1 with h1 | h1
        · exact h.groups_nodup e h1
        · rw [h1]; exact hgn
      · simp only [he, if_false] at hmem
        rcases GoMap.mem_set _ _ _ _ hmem with h1 | h1
        · exact h.groups_nodup e h1
        · rw [h1]; exact hgn

theorem Distinct.of_updateFreq {c : Cache} (h : Distinct c) (key : String) :
    Distinct (updateFreq c key) := by
  rw [updateFreq_eq]
  exact (h.of_removeFromFreqSet key _).of_setFreq key _

theorem Distinct.of_removeKey {c : Cache} (h : Distinct c) (key : String) :
    Distinct (removeKey c key) := by
  cases hv : c.cache.get? key with
  | none => rw [removeKey_absent c key hv]; exact h
  | some val =>
    rw [removeKey_present c key val hv]
    have h1 := h.of_removeFromFreqSet key (freqOf c key)
    exact ⟨GoMap.nodup_delete _ _ h.freqMap_nodup, GoMap.nodup_delete _ _ h.timeMap_nodup,
      h1.freqToKeys_nodup, h1.groups_nodup⟩

theorem Distinct.of_store {c : Cache} (h : Distinct c) (key : String) (value : Value)
    (now : Int) : Distinct (store c key value now) := by
  cases hv : c.cache.get? key with
  | none =>
    rw [store_absent c key value now hv]
    have h1 := h.of_setFreq key 1
    exact ⟨GoMap.nodup_set _ _ _ h.freqMap_nodup, GoMap.nodup_set _ _ _ h.timeMap_nodup,
      h1.freqToKeys_nodup, h1.groups_nodup⟩
  | some val =>
    rw [store_present c key value val now hv]
    apply Distinct.of_updateFreq
    exact h.of_fields rfl rfl rfl

theorem Distinct.of_removeOldest {c : Cache} (h : Distinct c) (iter : List String → List String) :
    Distinct (removeOldest iter c) := by
  unfold lfu.removeOldest
  split
  · exact h
  · simp only
    split
    · exact h
    · exact h.of_removeKey _

theorem Reachable.distinct {cap : Int} {cb : Bool} {c : Cache} (h : Reachable cap cb c) :
    Distinct c := by
  induction h with
  | init => exact ⟨by simp [New, GoMap.keys], by simp [New, GoMap.keys],
      by simp [New, GoMap.keys], by simp [New]⟩
  | get key _ ih =>
    unfold Get
    split
    · exact ih.of_updateFreq key
    · exact ih
  | store key value now _ ih => exact ih.of_store key value now
  | evict iter _ _ _ ih => exact ih.of_removeOldest iter

/-! ## Groups of the keys that are not accessed -/

theorem updateFreq_groupOf_get? (c : Cache) (key k : String) (f : Int) (hk : k ≠ key) :
    (groupOf (updateFreq c key) f).get? k = (groupOf c f).get? k := by
  unfold groupOf
  rw [updateFreq_freqToKeys]
  by_cases h1 : f = freqOf c key + 1
  · rw [if_pos h1]
    simp only [Option.getD_some, GoMap.get?_set, if_neg hk, groupOf, h1]
  · rw [if_neg h1]
    by_cases h2 : f = freqOf c key
    · rw [if_pos h2, h2]
      cases hg : c.freqToKeys.get? (freqOf c key) with
      | none => rfl
      | some g =>
        have hgk : (g.delete key).get? k = g.get? k := by
          rw [GoMap.get?_delete, if_neg hk]
        by_cases he : g.delete key = []
        · simp only [he, if_true, Option.getD_none, Option.getD_some]
          rw [← hgk, he]
        · simp only [he, if_false, Option.getD_some]
          exact hgk
    · rw [if_neg h2]

theorem accessedState_reachable64 : Reachable64 10 true accessedState := by
  have h : (Get (store64 (New 10 true) "a" (Value.ofString "1") 1) "a").2.2 = accessedState := by
    decide
  exact h ▸ (Reachable64.init.store "a" (Value.ofString "1") 1).get "a"

theorem accessedState_reachable : Reachable 10 true accessedState :=
  (Reachable.init.store "a" (Value.ofString "1") 1).get "a"

theorem lfuEvictionState_reachable : Reachable 30 false lfuEvictionState :=
  ((((((Reachable.init.store "key1" (Value.ofString "val1") 1).store "key2"
    (Value.ofString "val2") 2).store "key3" (Value.ofString "val3") 3).get "key1").get
    "key2").get "key1").store "key4" (Value.ofString "val4") 4

/-- After `removeFromFreqSet` the group of the frequency is absent or has a member. -/
theorem removeFromFreqSet_group (c : Cache) (key : String) (f : Int) :
    ¬ ((removeFromFreqSet c key f).freqToKeys.get? f ≠ none ∧
      (groupOf (removeFromFreqSet c key f) f).len = 0) := by
  rintro ⟨h1, h2⟩
  unfold groupOf at h2
  rw [removeFromFreqSet_freqToKeys, if_pos rfl] at h1 h2
  cases hg : c.freqToKeys.get? f with
  | none => simp [hg] at h1
  | some g =>
    by_cases he : g.delete key = []
    · simp [hg, he] at h1
    · simp [hg, he, GoMap.len_eq_zero] at h2

theorem Get_timeMap (c : Cache) (key : String) :
    (Get c key).2.2.timeMap = c.timeMap := by
  unfold Get
  cases hv : c.cache.get? key with
  | none => rfl
  | some val => exact (updateFreq_frame c key).2.2.2.1

/-! ## Timestamps -/

theorem store_timeOf_present (c : Cache) (key : String) (value : Value) (now : Int)
    (k : String) (h : c.cache.get? key ≠ none) :
    timeOf (store c key value now) k = timeOf c k := by
  cases hv : c.cache.get? key with
  | none => exact absurd hv h
  | some val =>
    unfold timeOf
    rw [store_present c key value val now hv, (updateFreq_frame _ key).2.2.2.1]

theorem store_timeOf_absent (c : Cache) (key : String) (value : Value) (now : Int)
    (k : String) (h : c.cache.get? key = none) :
    timeOf (store c key value now) k = if k = key then now else timeOf c k := by
  rw [store_absent c key value now h]
  unfold timeOf
  simp only [GoMap.get?_set]
  by_cases hk : k = key
  · simp [hk]
  · simp [hk]

theorem removeOldest_timeOf (iter : List String → List String) (c : Cache) (k : String)
    (h : (removeOldest iter c).cache.get? k ≠ none) :
    timeOf (removeOldest iter c) k = timeOf c k := by
  unfold removeOldest at h ⊢
  by_cases h1 : c.cache.len = 0
  · simp [h1]
  · by_cases h2 : (groupOf c c.minFreq).len = 0
    · simp [h1, h2]
    · simp only [h1, h2, if_false] at h ⊢
      cases hv : c.cache.get? (scan c (iter (groupOf c c.minFreq).keys)).1 with
      | none => rw [removeKey_absent _ _ hv]
      | some val =>
        rw [removeKey_present _ _ val hv] at h ⊢
        simp only [GoMap.get?_delete] at h
        unfold timeOf
        simp only [GoMap.get?_delete]
        by_cases hk : k = (scan c (iter (groupOf c c.minFreq).keys)).1
        · simp [hk] at h
        · simp [hk]

theorem evictLoop_timeOf (iter : List String → List String) (k : String) :
    ∀ (fuel : Nat) (c c' : Cache), evictLoop iter fuel c = some c' →
      c'.cache.get? k ≠ none → timeOf c' k = timeOf c k := by
  intro fuel
  induction fuel with
  | zero =>
    intro c c' h _
    by_cases hg : overCapacity c
    · simp [evictLoop, hg] at h
    · simp only [evictLoop, hg, if_false, Option.some.injEq] at h
      subst h; rfl
  | succ n ih =>
    intro c c' h hk
    by_cases hg : overCapacity c
    · simp only [evictLoop, hg, if_true] at h
      rw [ih _ _ h hk]
      apply removeOldest_timeOf
      rw [← evictLoop_cache_get? iter k n _ _ h hk]
      exact hk
    · simp only [evictLoop, hg, if_false, Option.some.injEq] at h
      subst h; rfl

/-! ## Entries larger than the capacity -/

theorem removeOldest_cache_mem (iter : List String → List String) (c : Cache)
    (e : String × Value) (h : e ∈ (removeOldest iter c).cache) : e ∈ c.cache := by
  unfold removeOldest at h
  by_cases h1 : c.cache.len = 0
  · simpa [h1] using h
  · by_cases h2 : (groupOf c c.minFreq).len = 0
    · simpa [h1, h2] using h
    · simp only [h1, h2, if_false] at h
      cases hv : c.cache.get? (scan c (iter (groupOf c c.minFreq).keys)).1 with
      | none => rw [removeKey_absent _ _ hv] at h; exact h
      | some val =>
        rw [removeKey_present _ _ val hv] at h
        exact (GoMap.mem_delete _ _ _ h).1

/-! ## Keys of frequency 2 or more -/

/-- A key of frequency 2 or more is not the one `removeOldest` removes. -/
theorem removeOldest_keeps {cap : Int} {cb : Bool} {c : Cache} (hi : Inv cap cb c)
    (iter : List String → List String) (hv : ValidIter iter) (key : String)
    (hf : 2 ≤ freqOf c key) :
    freqOf (removeOldest iter c) key = freqOf c key ∧
    ∃ extra, (removeOldest iter c).calls = c.calls ++ extra ∧ ∀ e ∈ extra, e.1 ≠ key := by
  rcases removeOldest_cases iter hv c with h | ⟨sel, hsel, h⟩
  · rw [h]
    exact ⟨rfl, [], by simp, by simp⟩
  · rw [h]
    have hne : key ≠ sel := by
      rw [GoMap.mem_keys_iff] at hsel
      unfold groupOf at hsel
      cases hg : c.freqToKeys.get? c.minFreq with
      | none => simp [hg, GoMap.get?] at hsel
      | some g =>
        rw [hg] at hsel
        have h1 := hi.group_freq _ g sel hg hsel
        rw [hi.minFreq_eq] at h1
        intro heq
        rw [heq, freqOf_of_get? h1] at hf
        omega
    cases hc : c.cache.get? sel with
    | none =>
      rw [removeKey_absent c sel hc]
      exact ⟨rfl, [], by simp, by simp⟩
    | some val =>
      rw [removeKey_present c sel val hc]
      constructor
      · unfold freqOf
        simp only [GoMap.get?_delete, if_neg hne]
      · by_cases hcb : c.OnEvicted = true
        · refine ⟨[(sel, val)], by simp [hcb], ?_⟩
          intro e he
          simp only [List.mem_singleton] at he
          rw [he]
          exact fun h => hne h.symm
        · exact ⟨[], by simp [hcb], by simp⟩

theorem evictLoop_keeps {cap : Int} {cb : Bool} (iter : List String → List String)
    (hv : ValidIter iter) (key : String) :
    ∀ (fuel : Nat) (c c' : Cache), Inv cap cb c → 2 ≤ freqOf c key →
      evictLoop iter fuel c = some c' →
      freqOf c' key = freqOf c key ∧
      ∃ extra, c'.calls = c.calls ++ extra ∧ ∀ e ∈ extra, e.1 ≠ key := by
  intro fuel
  induction fuel with
  | zero =>
    intro c c' _ _ h
    by_cases hg : overCapacity c
    · simp [evictLoop, hg] at h
    · simp only [evictLoop, hg, if_false, Option.some.injEq] at h
      subst h
      exact ⟨rfl, [], by simp, by simp⟩
  | succ n ih =>
    intro c c' hi hf h
    by_cases hg : overCapacity c
    · simp only [evictLoop, hg, if_true] at h
      obtain ⟨h1, x1, hx1, hn1⟩ := removeOldest_keeps hi iter hv key hf
      obtain ⟨h2, x2, hx2, hn2⟩ := ih _ _ (hi.removeOldest iter) (by rw [h1]; exact hf) h
      refine ⟨h2.trans h1, x1 ++ x2, by rw [hx2, hx1, List.append_assoc], ?_⟩
      intro e he
      rcases List.mem_append.1 he with he | he
      · exact hn1 e he
      · exact hn2 e he
    · simp only [evictLoop, hg, if_false, Option.some.injEq] at h
      subst h
      exact ⟨rfl, [], by simp, by simp⟩

theorem present_of_freq {cap : Int} {cb : Bool} {c : Cache} (hi : Inv cap cb c)
    (key : String) (hf : 2 ≤ freqOf c key) : c.cache.get? key ≠ none := by
  apply (hi.dom key).2
  intro hn
  unfold freqOf at hf
  rw [hn] at hf
  simp at hf

theorem step_keeps {cap : Int} {cb : Bool} (fuel : Nat) (key : String) (c c' : Cache)
    (op : Op) (hi : Inv cap cb c) (hv : ValidOps [op]) (hf : 2 ≤ freqOf c key)
    (h : step fuel c op = some c') :
    Inv cap cb c' ∧ 2 ≤ freqOf c' key ∧
    ∃ extra, c'.calls = c.calls ++ extra ∧ ∀ e ∈ extra, e.1 ≠ key := by
  have hp := present_of_freq hi key hf
  cases op with
  | get k =>
    simp only [step, Option.some.injEq] at h
    subst h
    refine ⟨hi.get k, ?_, [], by simp [Get_calls], by simp⟩
    cases hk : c.cache.get? k with
    | none =>
      have : (Get c k).2.2 = c := by unfold Get; simp [hk]
      rw [this]; exact hf
    | some val =>
      rw [Get_present c k (by simp [hk]), updateFreq_freqOf]
      by_cases hkk : key = k
      · rw [if_pos hkk, ← hkk]; omega
      · rw [if_neg hkk]; exact hf
  | add k value now iter =>
    simp only [step, Add] at h
    have hs : 2 ≤ freqOf (store c k value now) key := by
      cases hk : c.cache.get? k with
      | none =>
        have hkk : key ≠ k := by
          intro heq
          rw [heq] at hp
          exact hp hk
        rw [store_freqOf_absent _ _ _ _ _ hk, if_neg hkk]
        exact hf
      | some val =>
        rw [store_freqOf_present _ _ _ _ _ (by simp [hk])]
        by_cases hkk : key = k
        · rw [if_pos hkk, ← hkk]; omega
        · rw [if_neg hkk]; exact hf
    obtain ⟨h1, x, hx, hn⟩ :=
      evictLoop_keeps iter hv.1 key fuel _ _ (hi.store k value now) hs h
    refine ⟨(evictLoop_inv iter fuel _ _ (hi.store k value now) h).1, by rw [h1]; exact hs,
      x, by rw [hx, store_calls], hn⟩

theorem run_keeps {cap : Int} {cb : Bool} (fuel : Nat) (key : String) :
    ∀ (ops : List Op) (c c' : Cache), Inv cap cb c → ValidOps ops → 2 ≤ freqOf c key →
      run fuel c ops = some c' →
      Inv cap cb c' ∧ 2 ≤ freqOf c' key ∧
      ∃ extra, c'.calls = c.calls ++ extra ∧ ∀ e ∈ extra, e.1 ≠ key := by
  intro ops
  induction ops with
  | nil =>
    intro c c' hi _ hf h
    simp only [run, Option.some.injEq] at h
    subst h
    exact ⟨hi, hf, [], by simp, by simp⟩
  | cons op ops ih =>
    intro c c' hi hv hf h
    simp only [run] at h
    cases hs : step fuel c op with
    | none => simp [hs] at h
    | some c1 =>
      rw [hs] at h
      simp only [Option.some_bind] at h
      have hv1 : ValidOps [op] ∧ ValidOps ops := by
        cases op with
        | get k => exact ⟨trivial, hv⟩
        | add k value now iter => exact ⟨⟨hv.1, trivial⟩, hv.2⟩
      obtain ⟨hi1, hf1, x1, hx1, hn1⟩ := step_keeps fuel key c c1 op hi hv1.1 hf hs
      obtain ⟨hi2, hf2, x2, hx2, hn2⟩ := ih c1 c' hi1 hv1.2 hf1 h
      refine ⟨hi2, hf2, x1 ++ x2, by rw [hx2, hx1, List.append_assoc], ?_⟩
      intro e he
      rcases List.mem_append.1 he with he | he
      · exact hn1 e he
      · exact hn2 e he

/-! ## A new key among keys of frequency 2 or more -/

theorem GoMap.set_set {κ ν : Type} [DecidableEq κ] (m : GoMap κ ν) (k : κ) (a b : ν) :
    GoMap.set (GoMap.set m k a) k b = GoMap.set m k b := by
  induction m with
  | nil => simp [GoMap.set]
  | cons e m ih =>
    obtain ⟨e1, e2⟩ := e
    by_cases h : e1 = k
    · simp [GoMap.set, h]
    · simp [GoMap.set, h, ih]

theorem GoMap.delete_set_of_not_mem {κ ν : Type} [DecidableEq κ] (m : GoMap κ ν) (k : κ)
    (v : ν) (h : GoMap.get? m k = none) : GoMap.delete (GoMap.set m k v) k = m := by
  induction m with
  | nil => simp [GoMap.set, GoMap.delete]
  | cons e m ih =>
    obtain ⟨e1, e2⟩ := e
    by_cases h1 : e1 = k
    · simp [GoMap.get?, h1] at h
    · simp only [GoMap.get?, h1, if_false] at h
      simp [GoMap.set, GoMap.delete, h1, ih h]

/-- When every key present has frequency 2 or more there is no group of frequency 1. -/
theorem no_group_one {cap : Int} {cb : Bool} {c : Cache} (hi : Inv cap cb c)
    (hfreq : ∀ k, c.cache.get? k ≠ none → 2 ≤ freqOf c k) : c.freqToKeys.get? 1 = none := by
  cases hg : c.freqToKeys.get? 1 with
  | none => rfl
  | some g =>
    exfalso
    have hne := hi.group_nonempty 1 g hg
    cases g with
    | nil => exact hne rfl
    | cons a l =>
      obtain ⟨k, b⟩ := a
      have hk : GoMap.get? ((k, b) :: l) k ≠ none := by simp [GoMap.get?]
      have hf := hi.group_freq 1 _ k hg hk
      have hp : c.cache.get? k ≠ none := (hi.dom k).2 (by rw [hf]; simp)
      have := hfreq k hp
      rw [freqOf_of_get? hf] at this
      omega

/-- The first half of `Add` of a new key when no group of frequency 1 is stored. -/
theorem store_new_group (c : Cache) (key : String) (value : Value) (now : Int)
    (hk : c.cache.get? key = none) (hg : c.freqToKeys.get? 1 = none) :
    store c key value now =
      { maxBytes := c.maxBytes
        nBytes := c.nBytes + (strLen key + value.Len)
        cache := c.cache.set key value
        freqMap := c.freqMap.set key 1
        timeMap := c.timeMap.set key now
        freqToKeys := c.freqToKeys.set 1 [(key, true)]
        minFreq := 1
        OnEvicted := c.OnEvicted
        calls := c.calls } := by
  rw [store_absent c key value now hk]
  have : (setFreq c key 1).freqToKeys = c.freqToKeys.set 1 [(key, true)] := by
    simp [setFreq, hg, groupOf, GoMap.get?_set, GoMap.set_set, GoMap.set]
  rw [this]

/-- The eviction that follows removes the key just stored and restores every index. -/
theorem removeOldest_store_new {cap : Int} {cb : Bool} {c : Cache} (hi : Inv cap cb c)
    (iter : List String → List String) (hv : ValidIter iter) (key : String) (value : Value)
    (now : Int) (hk : c.cache.get? key = none) (hg : c.freqToKeys.get? 1 = none) :
    removeOldest iter (store c key value now) =
      { c with calls := if cb then c.calls ++ [(key, value)] else c.calls } := by
  have hfm : c.freqMap.get? key = none := by
    by_contra h
    exact (hi.dom key).2 h hk
  have htm : c.timeMap.get? key = none := by
    by_contra h
    exact (hi.time_dom key).2 h hk
  rw [store_new_group c key value now hk hg]
  have hiter : iter [key] = [key] := List.perm_singleton.1 (hv [key])
  unfold removeOldest
  have hlen : ¬ GoMap.len (GoMap.set c.cache key value) = 0 := by
    rw [GoMap.len_eq_zero]; exact GoMap.set_ne_nil _ _ _
  simp only [hlen, if_false, groupOf, GoMap.get?_set, if_true, Option.getD_some]
  have hglen : ¬ GoMap.len ([(key, true)] : GoMap String Bool) = 0 := by
    simp [GoMap.len]
  simp only [hglen, if_false, GoMap.keys, List.map_cons, List.map_nil, hiter]
  have hscan : ∀ s : Cache, (scan s [key]).1 = key := by
    intro s; simp [scan, scanStep]
  rw [hscan]
  rw [removeKey_present _ key value (by simp [GoMap.get?_set])]
  apply Cache.eq_of_fields
  · rfl
  · simp only; ring
  · exact GoMap.delete_set_of_not_mem _ _ _ hk
  · exact GoMap.delete_set_of_not_mem _ _ _ hfm
  · exact GoMap.delete_set_of_not_mem _ _ _ htm
  · simp only [freqOf, GoMap.get?_set, if_true, Option.getD_some]
    unfold removeFromFreqSet
    simp only [GoMap.get?_set, if_true, GoMap.delete, GoMap.len, List.length_nil,
      Nat.cast_zero, GoMap.set_set]
    exact GoMap.delete_set_of_not_mem _ _ _ hg
  · exact hi.minFreq_eq.symm
  · rfl
  · simp only [hi.callback_eq]

/-! ## The byte total in `int64` -/

theorem wrap64_range (x : Int) :
    -9223372036854775808 ≤ wrap64 x ∧ wrap64 x < 9223372036854775808 := by
  unfold wrap64; omega

theorem wrap64_of_range (x : Int) (h1 : -9223372036854775808 ≤ x)
    (h2 : x < 9223372036854775808) : wrap64 x = x := by
  unfold wrap64; omega

theorem setBytes_self (c : Cache) (n : Int) (h : c.nBytes = n) : setBytes c n = c := by
  cases c; simp_all [setBytes]

theorem setFreq_setBytes (c : Cache) (n : Int) (key : String) (freq : Int) :
    setFreq (setBytes c n) key freq = setBytes (setFreq c key freq) n := by
  by_cases h : c.freqToKeys.get? freq = none <;> simp [setFreq, setBytes, h, groupOf]

theorem removeFromFreqSet_setBytes (c : Cache) (n : Int) (key : String) (freq : Int) :
    removeFromFreqSet (setBytes c n) key freq = setBytes (removeFromFreqSet c key freq) n := by
  cases hg : c.freqToKeys.get? freq with
  | none => simp [removeFromFreqSet, setBytes, hg]
  | some g =>
    by_cases he : (GoMap.delete g key).len = 0 <;> simp [removeFromFreqSet, setBytes, hg, he]

theorem updateFreq_setBytes (c : Cache) (n : Int) (key : String) :
    updateFreq (setBytes c n) key = setBytes (updateFreq c key) n := by
  rw [updateFreq_eq, updateFreq_eq]
  have hf : freqOf (setBytes c n) key = freqOf c key := rfl
  rw [hf, removeFromFreqSet_setBytes, setFreq_setBytes]

theorem Get_setBytes (c : Cache) (n : Int) (key : String) :
    (Get (setBytes c n) key).2.2 = setBytes (Get c key).2.2 n := by
  have hc : (setBytes c n).cache = c.cache := rfl
  unfold Get
  rw [hc]
  cases hv : c.cache.get? key with
  | none => rfl
  | some val => exact updateFreq_setBytes c n key

/-- Fields of the cache after `removeKey64` of a present key. -/
theorem removeKey64_present (c : Cache) (key : String) (val : Value)
    (h : c.cache.get? key = some val) :
    removeKey64 c key =
      setBytes (removeKey c key) (wrap64 (c.nBytes - wrap64 (strLen key + val.Len))) := by
  rw [removeKey_present c key val h]
  unfold removeKey64
  simp only [h]
  have hfr : removeFromFreqSet
      { c with nBytes := wrap64 (c.nBytes - wrap64 (strLen key + val.Len)) } key
      (freqOf c key) =
      setBytes (removeFromFreqSet c key (freqOf c key))
        (wrap64 (c.nBytes - wrap64 (strLen key + val.Len))) :=
    removeFromFreqSet_setBytes c _ key (freqOf c key)
  have hf : freqOf { c with nBytes := wrap64 (c.nBytes - wrap64 (strLen key + val.Len)) }
      key = freqOf c key := rfl
  rw [hf, hfr]
  obtain ⟨b1, -, b3, b4, b5, b6, b7, b8⟩ := removeFromFreqSet_frame c key (freqOf c key)
  by_cases hcb : c.OnEvicted = true
  · simp [setBytes, b1, b3, b4, b5, b6, b7, b8, hcb]
  · simp [setBytes, b1, b3, b4, b5, b6, b7, b8, hcb]

theorem removeKey64_absent (c : Cache) (key : String) (h : c.cache.get? key = none) :
    removeKey64 c key = c := by
  unfold removeKey64; simp [h]

/-- Apart from `nBytes`, `removeOldest64` gives what `removeOldest` gives. -/
theorem removeOldest64_eq (iter : List String → List String) (c : Cache) :
    removeOldest64 iter c =
      setBytes (removeOldest iter c) (removeOldest64 iter c).nBytes := by
  unfold removeOldest64 removeOldest
  by_cases h1 : c.cache.len = 0
  · simp only [h1, if_true]
    exact (setBytes_self c _ rfl).symm
  · by_cases h2 : (groupOf c c.minFreq).len = 0
    · simp only [h1, h2, if_true, if_false]
      exact (setBytes_self c _ rfl).symm
    · simp only [h1, h2, if_false]
      cases hv : c.cache.get? (scan c (iter (groupOf c c.minFreq).keys)).1 with
      | none =>
        rw [removeKey64_absent _ _ hv, removeKey_absent _ _ hv]
        exact (setBytes_self c _ rfl).symm
      | some val =>
        rw [removeKey64_present _ _ val hv]
        rfl

/-- Apart from `nBytes`, `removeOldest` does not depend on `nBytes`. -/
theorem removeOldest_setBytes (iter : List String → List String) (c : Cache) (n m : Int) :
    setBytes (removeOldest iter (setBytes c n)) m = setBytes (removeOldest iter c) m := by
  have hc : (setBytes c n).cache = c.cache := rfl
  have hg : groupOf (setBytes c n) (setBytes c n).minFreq = groupOf c c.minFreq := rfl
  have hs : ∀ l, scan (setBytes c n) l = scan c l := fun _ => rfl
  unfold removeOldest
  rw [hc, hg]
  simp only [hs]
  by_cases h1 : c.cache.len = 0
  · simp only [h1, if_true]; rfl
  · by_cases h2 : (groupOf c c.minFreq).len = 0
    · simp only [h1, h2, if_true, if_false]; rfl
    · simp only [h1, h2, if_false]
      cases hv : c.cache.get? (scan c (iter (groupOf c c.minFreq).keys)).1 with
      | none =>
        rw [removeKey_absent _ _ hv, removeKey_absent (setBytes c n) _ hv]
        rfl
      | some val =>
        rw [removeKey_present _ _ val hv, removeKey_present (setBytes c n) _ val hv]
        have hf : ∀ k, freqOf (setBytes c n) k = freqOf c k := fun _ => rfl
        rw [hf, removeFromFreqSet_setBytes]
        rfl

/-- Apart from `nBytes`, `store64` gives what `store` gives. -/
theorem store64_eq (c : Cache) (key : String) (value : Value) (now : Int) :
    store64 c key value now =
      setBytes (store c key value now) (store64 c key value now).nBytes := by
  unfold store64 store
  cases hv : c.cache.get? key with
  | none =>
    simp only
    have h1 := setFreq_setBytes
      { c with cache := c.cache.set key value, timeMap := c.timeMap.set key now }
      (c.nBytes + (strLen key + value.Len)) key 1
    have h2 := setFreq_setBytes
      { c with cache := c.cache.set key value, timeMap := c.timeMap.set key now }
      (wrap64 (c.nBytes + wrap64 (strLen key + value.Len))) key 1
    simp only [setBytes] at h1 h2 ⊢
    rw [h1, h2]
  | some val =>
    simp only
    have h1 := updateFreq_setBytes { c with cache := c.cache.set key value }
      (c.nBytes + (value.Len - val.Len)) key
    have h2 := updateFreq_setBytes { c with cache := c.cache.set key value }
      (wrap64 (c.nBytes + wrap64 (value.Len - val.Len))) key
    simp only [setBytes] at h1 h2 ⊢
    rw [h1, h2]

/-- Apart from `nBytes`, `store` does not depend on `nBytes`. -/
theorem store_setBytes (c : Cache) (n m : Int) (key : String) (value : Value) (now : Int) :
    setBytes (store (setBytes c n) key value now) m = setBytes (store c key value now) m := by
  have hc : (setBytes c n).cache = c.cache := rfl
  unfold store
  rw [hc]
  cases hv : c.cache.get? key with
  | none =>
    simp only
    have h1 := setFreq_setBytes
      { c with cache := c.cache.set key value, timeMap := c.timeMap.set key now }
      (c.nBytes + (strLen key + value.Len)) key 1
    have h2 := setFreq_setBytes
      { c with cache := c.cache.set key value, timeMap := c.timeMap.set key now }
      (n + (strLen key + value.Len)) key 1
    simp only [setBytes] at h1 h2 ⊢
    rw [h1, h2]
  | some val =>
    simp only
    have h1 := updateFreq_setBytes { c with cache := c.cache.set key value }
      (c.nBytes + (value.Len - val.Len)) key
    have h2 := updateFreq_setBytes { c with cache := c.cache.set key value }
      (n + (value.Len - val.Len)) key
    simp only [setBytes] at h1 h2 ⊢
    rw [h1, h2]

theorem store64_cache (c : Cache) (key : String) (value : Value) (now : Int) :
    (store64 c key value now).cache = c.cache.set key value := by
  rw [store64_eq]
  exact store_cache c key value now

theorem store64_nBytes_absent (c : Cache) (key : String) (value : Value) (now : Int)
    (h : c.cache.get? key = none) :
    (store64 c key value now).nBytes = wrap64 (c.nBytes + wrap64 (strLen key + value.Len)) := by
  unfold store64
  simp only [h]
  exact (setFreq_frame _ key 1).2.1

theorem store64_nBytes_present (c : Cache) (key : String) (value val : Value) (now : Int)
    (h : c.cache.get? key = some val) :
    (store64 c key value now).nBytes = wrap64 (c.nBytes + wrap64 (value.Len - val.Len)) := by
  unfold store64
  simp only [h]
  exact (updateFreq_frame _ key).2.1

theorem store64_maxBytes (c : Cache) (key : String) (value : Value) (now : Int) :
    (store64 c key value now).maxBytes = c.maxBytes := by
  rw [store64_eq]
  exact store_maxBytes c key value now

/-- A state that has the fields of a consistent state, apart from `nBytes`, and the byte
total of its entries in `int64`, is consistent in `int64`. -/
theorem inv64_of_same {cap : Int} {cb : Bool} {x y : Cache} (hx : Inv cap cb x)
    (hsame : ∀ m, setBytes y m = setBytes x m) (htotal : y.nBytes = wrap64 (bytesOf y.cache)) :
    Inv64 cap cb y := by
  have hcache : y.cache = x.cache := by
    have := congrArg (fun z : Cache => z.cache) (hsame 0)
    exact this
  refine ⟨?_, htotal⟩
  rw [hsame, hcache, setBytes_self x _ hx.bytes]
  exact hx

theorem inv64_new (cap : Int) (cb : Bool) : Inv64 cap cb (New cap cb) :=
  inv64_of_same (Inv.new cap cb) (fun _ => rfl) (by simp [New, bytesOf, wrap64])

theorem inv64_get {cap : Int} {cb : Bool} {c : Cache} (h : Inv64 cap cb c) (key : String) :
    Inv64 cap cb (Get c key).2.2 := by
  apply inv64_of_same (h.idx.get key)
  · intro m
    rw [Get_setBytes]
    rfl
  · rw [Get_cache]
    have : (Get c key).2.2.nBytes = c.nBytes := by
      unfold Get
      cases hv : c.cache.get? key with
      | none => rfl
      | some val => exact (updateFreq_frame c key).2.1
    rw [this]
    exact h.total

theorem inv64_store64 {cap : Int} {cb : Bool} {c : Cache} (h : Inv64 cap cb c)
    (key : String) (value : Value) (now : Int) : Inv64 cap cb (store64 c key value now) := by
  apply inv64_of_same (h.idx.store key value now)
  · intro m
    rw [store_setBytes, store64_eq]
    rfl
  · rw [store64_cache]
    cases hv : c.cache.get? key with
    | none =>
      rw [store64_nBytes_absent c key value now hv, bytesOf_set_new _ _ _ hv, h.total]
      unfold wrap64; omega
    | some val =>
      rw [store64_nBytes_present c key value val now hv, bytesOf_set_old _ _ _ val hv, h.total]
      unfold wrap64; omega

theorem inv64_removeOldest64 {cap : Int} {cb : Bool} {c : Cache} (h : Inv64 cap cb c)
    (iter : List String → List String) : Inv64 cap cb (removeOldest64 iter c) := by
  apply inv64_of_same (h.idx.removeOldest iter)
  · intro m
    rw [removeOldest_setBytes, removeOldest64_eq]
    rfl
  · have hn : c.cache.keys.Nodup := h.idx.nodup
    unfold removeOldest64
    by_cases h1 : c.cache.len = 0
    · simp only [h1, if_true]; exact h.total
    · by_cases h2 : (groupOf c c.minFreq).len = 0
      · simp only [h1, h2, if_true, if_false]; exact h.total
      · simp only [h1, h2, if_false]
        cases hv : c.cache.get? (scan c (iter (groupOf c c.minFreq).keys)).1 with
        | none => rw [removeKey64_absent _ _ hv]; exact h.total
        | some val =>
          rw [removeKey64_present _ _ val hv, removeKey_present _ _ val hv]
          simp only [setBytes]
          rw [bytesOf_delete _ _ val hn hv, h.total]
          unfold wrap64; omega

theorem Reachable64.inv64 {cap : Int} {cb : Bool} {c : Cache} (h : Reachable64 cap cb c) :
    Inv64 cap cb c := by
  induction h with
  | init => exact inv64_new cap cb
  | get key _ ih => exact inv64_get ih key
  | store key value now _ ih => exact inv64_store64 ih key value now
  | evict iter _ _ _ ih => exact inv64_removeOldest64 ih iter

theorem evictLoop64_inv {cap : Int} {cb : Bool} (iter : List String → List String) :
    ∀ (fuel : Nat) (c c' : Cache), Inv64 cap cb c → evictLoop64 iter fuel c = some c' →
      Inv64 cap cb c' ∧ ¬ overCapacity c' := by
  intro fuel
  induction fuel with
  | zero =>
    intro c c' hc h
    by_cases hg : overCapacity c
    · simp [evictLoop64, hg] at h
    · simp only [evictLoop64, hg, if_false, Option.some.injEq] at h
      subst h; exact ⟨hc, hg⟩
  | succ n ih =>
    intro c c' hc h
    by_cases hg : overCapacity c
    · simp only [evictLoop64, hg, if_true] at h
      exact ih _ _ (inv64_removeOldest64 hc iter) h
    · simp only [evictLoop64, hg, if_false, Option.some.injEq] at h
      subst h; exact ⟨hc, hg⟩

theorem evictLoop64_done (iter : List String → List String) (fuel : Nat) (c : Cache)
    (hg : ¬ overCapacity c) : evictLoop64 iter fuel c = some c := by
  cases fuel <;> simp [evictLoop64, hg]

theorem removeOldest64_cache (iter : List String → List String) (c : Cache) :
    (removeOldest64 iter c).cache = (removeOldest iter c).cache := by
  have := congrArg (fun z : Cache => z.cache) (removeOldest64_eq iter c)
  exact this

/-- In `int64` too, the eviction after the insertion of a new key among keys of frequency
2 or more removes that key and restores every field, the byte total included. -/
theorem removeOldest64_store64_new {cap : Int} {cb : Bool} {c : Cache} (hi : Inv64 cap cb c)
    (iter : List String → List String) (hv : ValidIter iter) (key : String) (value : Value)
    (now : Int) (hk : c.cache.get? key = none) (hg : c.freqToKeys.get? 1 = none) :
    removeOldest64 iter (store64 c key value now) =
      { c with calls := if cb then c.calls ++ [(key, value)] else c.calls } := by
  have hmodel := removeOldest_store_new hi.idx iter hv key value now hk hg
  have hsame : ∀ m, setBytes (removeOldest64 iter (store64 c key value now)) m =
      setBytes { c with calls := if cb then c.calls ++ [(key, value)] else c.calls } m := by
    intro m
    rw [removeOldest64_eq, store64_eq]
    have h1 : setBytes (removeOldest iter (setBytes (store c key value now)
        (store64 c key value now).nBytes)) m =
        setBytes (removeOldest iter (store c key value now)) m :=
      removeOldest_setBytes iter _ _ m
    have h2 : store (setBytes c (bytesOf c.cache)) key value now =
        setBytes (store c key value now)
          (store (setBytes c (bytesOf c.cache)) key value now).nBytes := by
      have := store_setBytes c (bytesOf c.cache)
        (store (setBytes c (bytesOf c.cache)) key value now).nBytes key value now
      rw [← this]
      exact (setBytes_self _ _ rfl).symm
    have h3 : setBytes (removeOldest iter (store (setBytes c (bytesOf c.cache)) key value
        now)) m = setBytes (removeOldest iter (store c key value now)) m := by
      rw [h2]
      exact removeOldest_setBytes iter _ _ m
    have h4 : setBytes (setBytes (removeOldest iter (setBytes (store c key value now)
        (store64 c key value now).nBytes))
        (removeOldest64 iter (setBytes (store c key value now)
          (store64 c key value now).nBytes)).nBytes) m =
        setBytes (removeOldest iter (setBytes (store c key value now)
          (store64 c key value now).nBytes)) m := rfl
    rw [h4, h1, ← h3, hmodel]
    rfl
  have hcache : (removeOldest64 iter (store64 c key value now)).cache = c.cache := by
    have := congrArg (fun z : Cache => z.cache) (hsame 0)
    exact this
  have hr := inv64_removeOldest64 (inv64_store64 hi key value now) iter
  have hn : (removeOldest64 iter (store64 c key value now)).nBytes = c.nBytes := by
    rw [hr.total, hcache, ← hi.total]
  have := hsame c.nBytes
  rw [setBytes_self _ _ hn] at this
  rw [this]
  rfl

/-- The sum of the sizes of entries whose sizes are not negative is not negative. -/
theorem bytesOf_nonneg_sizes (m : GoMap String Value)
    (h : ∀ e ∈ m, 0 ≤ strLen e.1 + e.2.Len) : 0 ≤ bytesOf m := by
  induction m with
  | nil => simp [bytesOf]
  | cons a m ih =>
    have h1 := h a (List.mem_cons_self a m)
    have h2 := ih (fun e he => h e (List.mem_cons_of_mem a he))
    simp only [bytesOf, List.map_cons, List.sum_cons] at h2 ⊢
    omega

/-- One eviction in `int64` keeps the entries within those held, with a sum of sizes that
does not grow, when no entry has a negative size. -/
theorem removeOldest64_small {cap : Int} {cb : Bool} {c : Cache} (hi : Inv64 cap cb c)
    (iter : List String → List String) (hpos : ∀ e ∈ c.cache, 0 ≤ strLen e.1 + e.2.Len) :
    (∀ e ∈ (removeOldest64 iter c).cache, e ∈ c.cache) ∧
    bytesOf (removeOldest64 iter c).cache ≤ bytesOf c.cache := by
  have hn : c.cache.keys.Nodup := hi.idx.nodup
  rw [removeOldest64_cache]
  refine ⟨fun e he => removeOldest_cache_mem iter c e he, ?_⟩
  unfold removeOldest
  by_cases h1 : c.cache.len = 0
  · simp [h1]
  · by_cases h2 : (groupOf c c.minFreq).len = 0
    · simp [h1, h2]
    · simp only [h1, h2, if_false]
      cases hv : c.cache.get? (scan c (iter (groupOf c c.minFreq).keys)).1 with
      | none => rw [removeKey_absent _ _ hv]
      | some val =>
        rw [removeKey_present _ _ val hv]
        simp only
        rw [bytesOf_delete _ _ val hn hv]
        have := hpos _ (GoMap.mem_of_get? _ _ _ hv)
        simp only at this
        omega

theorem evictLoop64_small {cap : Int} {cb : Bool} (iter : List String → List String)
    (k : String) :
    ∀ (fuel : Nat) (c c' : Cache), Inv64 cap cb c →
      (∀ e ∈ c.cache, 0 ≤ strLen e.1 + e.2.Len) →
      bytesOf c.cache < 9223372036854775808 → evictLoop64 iter fuel c = some c' →
      (∀ e ∈ c'.cache, 0 ≤ strLen e.1 + e.2.Len) ∧
      bytesOf c'.cache < 9223372036854775808 ∧
      (c'.cache.get? k ≠ none → c'.cache.get? k = c.cache.get? k) := by
  intro fuel
  induction fuel with
  | zero =>
    intro c c' _ hpos hlt h
    by_cases hg : overCapacity c
    · simp [evictLoop64, hg] at h
    · simp only [evictLoop64, hg, if_false, Option.some.injEq] at h
      subst h; exact ⟨hpos, hlt, fun _ => rfl⟩
  | succ n ih =>
    intro c c' hi hpos hlt h
    by_cases hg : overCapacity c
    · simp only [evictLoop64, hg, if_true] at h
      obtain ⟨hsub, hle⟩ := removeOldest64_small hi iter hpos
      obtain ⟨r1, r2, r3⟩ := ih _ _ (inv64_removeOldest64 hi iter)
        (fun e he => hpos e (hsub e he)) (lt_of_le_of_lt hle hlt) h
      refine ⟨r1, r2, ?_⟩
      intro hk
      rw [r3 hk, removeOldest64_cache]
      apply removeOldest_cache_get?
      rw [← removeOldest64_cache, ← r3 hk]
      exact hk
    · simp only [evictLoop64, hg, if_false, Option.some.injEq] at h
      subst h; exact ⟨hpos, hlt, fun _ => rfl⟩

/-! ## Claims -/

/-- C1 (defect of the code): `Add` does not always return. With capacity 10, after
`Add("a", "1")` and `Get("a")` the only key has frequency 2 while `minFreq` is still 1;
`Add("a", "12345678901")` then raises the byte total to 12, and every `removeOldest` of the
eviction loop finds no group at `minFreq`, removes nothing from the non-empty cache and
leaves the guard true: the loop does not end for any number of iterations. -/
theorem add_eviction_loop_never_ends :
    ∃ c : Cache,
      run 0 (New 10 false) [Op.add "a" (Value.ofString "1") 1 id, Op.get "a"] = some c ∧
      Reachable 10 false c ∧
      c.Len = 1 ∧ freqOf c "a" = 2 ∧ c.minFreq = 1 ∧
      (store c "a" (Value.ofString "12345678901") 2).Len = 1 ∧
      overCapacity (store c "a" (Value.ofString "12345678901") 2) ∧
      (∀ iter, removeOldest iter (store c "a" (Value.ofString "12345678901") 2) =
        store c "a" (Value.ofString "12345678901") 2) ∧
      ∀ fuel iter, Add fuel iter c "a" (Value.ofString "12345678901") 2 = none := by
  have hs : ∀ iter, removeOldest iter
      (store (Get (store (New 10 false) "a" (Value.ofString "1") 1) "a").2.2 "a"
        (Value.ofString "12345678901") 2) =
      store (Get (store (New 10 false) "a" (Value.ofString "1") 1) "a").2.2 "a"
        (Value.ofString "12345678901") 2 := by
    intro iter
    unfold removeOldest
    rw [if_neg (by decide)]
    simp only
    rw [if_pos (by decide)]
  refine ⟨(Get (store (New 10 false) "a" (Value.ofString "1") 1) "a").2.2, by decide,
    (Reachable.init.store "a" (Value.ofString "1") 1).get "a", by decide, by decide, by decide,
    by decide, by decide, hs, ?_⟩
  intro fuel iter
  exact evictLoop_stuck iter _ (by decide) (hs iter) fuel

/-- C2: for a cache built with capacity `cap > 0`, whenever a call of `Add` on a reachable
state returns, `Bytes()` is at most `cap` in the resulting state. -/
theorem add_capacity_bound {cap : Int} {cb : Bool} {c c' : Cache} {fuel : Nat}
    {iter : List String → List String} {key : String} {value : Value} {now : Int}
    (hc : Reachable cap cb c) (hcap : 0 < cap)
    (h : Add fuel iter c key value now = some c') : c'.Bytes ≤ cap := by
  obtain ⟨hi, hg⟩ := evictLoop_inv iter fuel _ _ (hc.inv.store key value now) h
  have hm := hi.maxBytes_eq
  unfold overCapacity at hg
  unfold Cache.Bytes
  by_contra hlt
  exact hg ⟨by omega, by omega⟩

/-- Witness for C2: capacity 10, `Add("key1", "123456")` then
`Add("k2", "k2")`, which evicts `key1`. -/
theorem add_capacity_bound_witness :
    ∃ c c' : Cache, Reachable 10 true c ∧
      Add 1 id c "k2" (Value.ofString "k2") 2 = some c' ∧ c'.Bytes = 4 ∧ c'.Bytes ≤ 10 :=
  ⟨store (New 10 true) "key1" (Value.ofString "123456") 1,
    removeOldest id (store (store (New 10 true) "key1" (Value.ofString "123456") 1) "k2"
      (Value.ofString "k2") 2),
    Reachable.init.store _ _ _, by decide, by decide,
    @add_capacity_bound 10 true (store (New 10 true) "key1" (Value.ofString "123456") 1)
      (removeOldest id (store (store (New 10 true) "key1" (Value.ofString "123456") 1) "k2"
        (Value.ofString "k2") 2))
      1 id "k2" (Value.ofString "k2") 2
      (Reachable.init.store "key1" (Value.ofString "123456") 1) (by decide) (by decide)⟩

/-- C3, as stated, fails: with capacity 3, `Add("key1", "1234")` stores 8 bytes, the eviction
loop removes the entry just stored, `Add` returns, and the `Get("key1")` that follows
reports a miss. -/
theorem roundtrip_fails_when_evicted :
    ∃ c' : Cache, Add 1 id (New 3 false) "key1" (Value.ofString "1234") 1 = some c' ∧
      (Get c' "key1").1 = none ∧ (Get c' "key1").2.1 = false :=
  ⟨removeOldest id (store (New 3 false) "key1" (Value.ofString "1234") 1),
    by decide, by decide, by decide⟩

/-- C3 (amended): on a reachable state, when `Add(key, value)` returns with `key` still in
the cache, the `Get(key)` that follows at once returns `(value, true)`, the value just
stored, also when `key` was present before with another value; and when the capacity is 0
`Add` returns, for any fuel, with `key` in the cache. -/
theorem add_then_get {cap : Int} {cb : Bool} {c : Cache} (fuel : Nat)
    (iter : List String → List String) (key : String) (value : Value) (now : Int)
    (hc : Reachable cap cb c) :
    (∀ c', Add fuel iter c key value now = some c' → c'.cache.get? key ≠ none →
      (Get c' key).1 = some value ∧ (Get c' key).2.1 = true) ∧
    (cap = 0 → ∃ c', Add fuel iter c key value now = some c' ∧ c'.cache.get? key ≠ none) := by
  constructor
  · intro c' h hk
    have h1 := evictLoop_cache_get? iter key fuel _ _ h hk
    rw [store_cache_get?, if_pos rfl] at h1
    unfold Get
    simp [h1]
  · intro h0
    have hm : (store c key value now).maxBytes = 0 := by
      rw [store_maxBytes, hc.inv.maxBytes_eq, h0]
    have hg : ¬ overCapacity (store c key value now) := by
      unfold overCapacity; simp [hm]
    refine ⟨store c key value now, evictLoop_done iter fuel _ hg, ?_⟩
    rw [store_cache_get?, if_pos rfl]
    simp

/-- Witness for C3 as amended: the overwrite of `key` on the unbounded cache of `TestAdd`. -/
theorem add_then_get_witness :
    Reachable 0 false (store (New 0 false) "key" (Value.ofString "1") 1) ∧
    (∀ c', Add 0 id (store (New 0 false) "key" (Value.ofString "1") 1) "key"
        (Value.ofString "111") 2 = some c' → c'.cache.get? "key" ≠ none →
      (Get c' "key").1 = some (Value.ofString "111") ∧ (Get c' "key").2.1 = true) ∧
    (∃ c', Add 0 id (store (New 0 false) "key" (Value.ofString "1") 1) "key"
        (Value.ofString "111") 2 = some c' ∧ c'.cache.get? "key" ≠ none) :=
  ⟨Reachable.init.store _ _ _,
    (add_then_get 0 id "key" (Value.ofString "111") 2 (Reachable.init.store "key"
      (Value.ofString "1") 1)).1,
    (add_then_get 0 id "key" (Value.ofString "111") 2 (Reachable.init.store "key"
      (Value.ofString "1") 1)).2 rfl⟩

/-- C10: on every state, reachable or not, `Get` of a key that is not in the cache returns
the nil value with `ok = false` and leaves the whole cache state as it was (values,
frequencies, timestamps, groups, `minFreq`, byte total), the log of callback invocations
included. -/
theorem get_missing (c : Cache) (key : String) (hk : c.cache.get? key = none) :
    Get c key = (none, false, c) := by
  unfold Get
  simp [hk]

/-- Witness for C10: the miss on `key2` of `TestGet`. -/
theorem get_missing_witness :
    Get (store (New 8 false) "key1" (Value.ofString "1234") 1) "key2" =
      (none, false, store (New 8 false) "key1" (Value.ofString "1234") 1) :=
  get_missing (store (New 8 false) "key1" (Value.ofString "1234") 1) "key2" (by decide)

/-- C4: on a reachable state, a key that `removeOldest` removes from the cache has, at the
moment of removal, a frequency that is at most the frequency of every key in the cache. -/
theorem eviction_takes_min_frequency {cap : Int} {cb : Bool} {c : Cache}
    (iter : List String → List String) (k k' : String)
    (hc : Reachable cap cb c) (hi : ValidIter iter)
    (hk : c.cache.get? k ≠ none) (hrem : (removeOldest iter c).cache.get? k = none)
    (hk' : c.cache.get? k' ≠ none) : freqOf c k ≤ freqOf c k' := by
  have hinv := hc.inv
  rcases removeOldest_cases iter hi c with h | ⟨sel, hsel, h⟩
  · rw [h] at hrem; exact absurd hrem hk
  · rw [h] at hrem
    have hks : k = sel := by
      cases hv : c.cache.get? sel with
      | none => rw [removeKey_absent c sel hv] at hrem; exact absurd hrem hk
      | some val =>
        rw [removeKey_present c sel val hv] at hrem
        simp only [GoMap.get?_delete] at hrem
        by_contra hne
        rw [if_neg hne] at hrem
        exact hk hrem
    subst hks
    rw [GoMap.mem_keys_iff] at hsel
    unfold groupOf at hsel
    cases hg : c.freqToKeys.get? c.minFreq with
    | none => simp [hg, GoMap.get?] at hsel
    | some g =>
      rw [hg] at hsel
      have hf := hinv.group_freq _ g k hg hsel
      rw [hinv.minFreq_eq] at hf
      obtain ⟨f', hf'⟩ := Option.ne_none_iff_exists'.1 ((hinv.dom k').1 hk')
      rw [freqOf_of_get? hf, freqOf_of_get? hf']
      exact hinv.freq_pos k' f' hf'

/-- Witness for C4: in the state of `TestLFUEviction` with `key1`
at frequency 3, `key2` at 2 and `key3`, `key4` at 1, `removeOldest` removes `key3`. -/
theorem eviction_takes_min_frequency_witness :
    freqOf lfuEvictionState "key1" = 3 ∧ freqOf lfuEvictionState "key2" = 2 ∧
    freqOf lfuEvictionState "key3" = 1 ∧ freqOf lfuEvictionState "key4" = 1 ∧
    (removeOldest id lfuEvictionState).cache.keys = ["key1", "key2", "key4"] ∧
    freqOf lfuEvictionState "key3" ≤ freqOf lfuEvictionState "key1" :=
  ⟨by decide, by decide, by decide, by decide, by decide,
    eviction_takes_min_frequency id "key3" "key1"
      (((((((Reachable.init.store "key1" (Value.ofString "val1") 1).store "key2"
        (Value.ofString "val2") 2).store "key3" (Value.ofString "val3") 3).get "key1").get
        "key2").get "key1").store "key4" (Value.ofString "val4") 4)
      (fun l => List.Perm.refl l) (by decide) (by decide) (by decide)⟩

/-- C5 (defect of the code): the scan of `removeOldest` uses `keyToRemove == ""` to mean
that no key is chosen yet. With the group `{"", "a"}` at `minFreq`, timestamps 1 for `""`
and 2 for `"a"`, and `range` visiting `""` first, the scan replaces `""` by `"a"` whatever
the timestamps, and `removeOldest` removes `"a"`, although `""` is older. -/
theorem tie_break_fails_on_empty_key :
    Reachable 3 false emptyKeyState ∧
    (groupOf emptyKeyState emptyKeyState.minFreq).keys = ["", "a"] ∧
    timeOf emptyKeyState "" = 1 ∧ timeOf emptyKeyState "a" = 2 ∧
    scan emptyKeyState ["", "a"] = ("a", 2) ∧
    (removeOldest id emptyKeyState).cache.keys = [""] ∧
    (Add 1 id (store (New 3 false) "" (Value.ofString "x") 1) "a" (Value.ofString "xyz") 2).map
      (fun c => c.cache.keys) = some [""] :=
  ⟨(Reachable.init.store "" (Value.ofString "x") 1).store "a" (Value.ofString "xyz") 2,
    by decide, by decide, by decide, by decide, by decide, by decide⟩

/-- C9: on every state, reachable or not, `Get(key)` of a present key, or `Add(key, v)` of a
present key that returns with the key still present, leaves the frequency of `key` exactly
1 higher and the frequency of every other key present afterwards unchanged; and when `Add`
of a key that is not present returns with the key present, `n` calls `Get(key)` after it
give the key frequency `n + 1`. -/
theorem frequency_steps (c : Cache) (key : String) :
    (c.cache.get? key ≠ none →
      freqOf (Get c key).2.2 key = freqOf c key + 1 ∧
      (∀ k, k ≠ key → freqOf (Get c key).2.2 k = freqOf c k) ∧
      ∀ fuel iter value now c', Add fuel iter c key value now = some c' →
        c'.cache.get? key ≠ none →
        freqOf c' key = freqOf c key + 1 ∧
        ∀ k, k ≠ key → c'.cache.get? k ≠ none → freqOf c' k = freqOf c k) ∧
    (c.cache.get? key = none →
      ∀ fuel iter value now c', Add fuel iter c key value now = some c' →
        c'.cache.get? key ≠ none → ∀ n : Nat, freqOf (getTimes n c' key) key = n + 1) := by
  constructor
  · intro hk
    refine ⟨?_, ?_, ?_⟩
    · rw [Get_present c key hk, updateFreq_freqOf, if_pos rfl]
    · intro k hne
      rw [Get_present c key hk, updateFreq_freqOf, if_neg hne]
    · intro fuel iter value now c' h hk'
      constructor
      · rw [evictLoop_freqOf iter key fuel _ _ h hk', store_freqOf_present _ _ _ _ _ hk,
          if_pos rfl]
      · intro k hne hkp
        rw [evictLoop_freqOf iter k fuel _ _ h hkp, store_freqOf_present _ _ _ _ _ hk,
          if_neg hne]
  · intro hk fuel iter value now c' h hk' n
    rw [getTimes_freqOf key n c' hk', evictLoop_freqOf iter key fuel _ _ h hk',
      store_freqOf_absent _ _ _ _ _ hk, if_pos rfl]
    ring

/-- Witness for C9: `TestFrequencyUpdate`, a new key then two `Get`. -/
theorem frequency_steps_witness :
    freqOf (getTimes 2 (store (New 100 false) "key1" (Value.ofString "value1") 1) "key1")
      "key1" = ((2 : Nat) : Int) + 1 :=
  (frequency_steps (New 100 false) "key1").2 (by decide) 0 id (Value.ofString "value1") 1
    (store (New 100 false) "key1" (Value.ofString "value1") 1) (by decide) (by decide) 2

/-- C8: for a cache built with capacity 0, every sequence of `Add` and `Get` calls runs to
its end, for any fuel, without any invocation of the callback; the keys present at the end
are exactly the keys that were added, and `Len()` is the number of distinct keys added. -/
theorem unbounded_never_evicts (cb : Bool) (fuel : Nat) (ops : List Op) :
    ∃ c, run fuel (New 0 cb) ops = some c ∧ c.calls = [] ∧
      (∀ k, c.cache.get? k ≠ none ↔ k ∈ addedKeys ops) ∧
      c.Len = ((addedKeys ops).dedup.length : Int) := by
  obtain ⟨c, h, hi, hcalls, hk⟩ := run_unbounded fuel ops (New 0 cb) (Inv.new 0 cb)
  have hk' : ∀ k, c.cache.get? k ≠ none ↔ k ∈ addedKeys ops := by
    intro k
    rw [hk k]
    simp [New, GoMap.get?]
  refine ⟨c, h, hcalls, hk', ?_⟩
  have hp : c.cache.keys.Perm (addedKeys ops).dedup := by
    rw [List.perm_ext_iff_of_nodup hi.nodup (List.nodup_dedup _)]
    intro k
    rw [GoMap.mem_keys_iff, List.mem_dedup]
    exact hk' k
  have hl := hp.length_eq
  unfold Cache.Len GoMap.len
  simp only [GoMap.keys, List.length_map] at hl
  rw [hl]

/-- C11: on every state, reachable or not, `Get(key)` leaves the cache map (the keys present
and every stored value), `Len()`, `Bytes()`, the capacity, the timestamps and the log of
callback invocations and `minFreq` unchanged, and for every other key it leaves the
frequency and the membership in every group unchanged: only the frequency bookkeeping of
`key` may change. -/
theorem get_never_evicts (c : Cache) (key : String) :
    (Get c key).2.2.cache = c.cache ∧ (Get c key).2.2.Len = c.Len ∧
    (Get c key).2.2.Bytes = c.Bytes ∧ (Get c key).2.2.calls = c.calls ∧
    (Get c key).2.2.maxBytes = c.maxBytes ∧ (Get c key).2.2.timeMap = c.timeMap ∧
    (Get c key).2.2.minFreq = c.minFreq ∧
    (∀ k, k ≠ key → freqOf (Get c key).2.2 k = freqOf c k) ∧
    ∀ k f, k ≠ key → (groupOf (Get c key).2.2 f).get? k = (groupOf c f).get? k := by
  cases hv : c.cache.get? key with
  | none =>
    have hg : (Get c key).2.2 = c := by unfold Get; simp [hv]
    rw [hg]
    exact ⟨rfl, rfl, rfl, rfl, rfl, rfl, rfl, fun _ _ => rfl, fun _ _ _ => rfl⟩
  | some val =>
    have hg : (Get c key).2.2 = updateFreq c key := Get_present c key (by simp [hv])
    rw [hg]
    obtain ⟨a1, a2, a3, a4, a5, -, a7⟩ := updateFreq_frame c key
    refine ⟨a3, ?_, a2, a7, a1, a4, a5, ?_, ?_⟩
    · unfold Cache.Len; rw [a3]
    · intro k hk
      rw [updateFreq_freqOf, if_neg hk]
    · intro k f hk
      exact updateFreq_groupOf_get? c key k f hk

/-- C13: on a reachable state, for a key that is not present, the first half of
`Add(key, value)` sets `minFreq` to 1, gives the key frequency 1 and makes it a member of
the group of frequency 1, whatever the frequencies of the other keys; and whenever `Add`
returns, `minFreq` is 1 and, if the key is still present, its frequency is 1 and it is a
member of the group of frequency 1. -/
theorem fresh_insert_resets_minimum {cap : Int} {cb : Bool} {c : Cache}
    (hc : Reachable cap cb c) (key : String) (value : Value) (now : Int)
    (hk : c.cache.get? key = none) :
    (store c key value now).minFreq = 1 ∧ freqOf (store c key value now) key = 1 ∧
    (groupOf (store c key value now) 1).get? key ≠ none ∧
    ∀ fuel iter c', Add fuel iter c key value now = some c' →
      c'.minFreq = 1 ∧
      (c'.cache.get? key ≠ none → freqOf c' key = 1 ∧ (groupOf c' 1).get? key ≠ none) := by
  have hs : freqOf (store c key value now) key = 1 := by
    rw [store_freqOf_absent _ _ _ _ _ hk, if_pos rfl]
  have hmem : ∀ c1 : Cache, Inv cap cb c1 → c1.cache.get? key ≠ none → freqOf c1 key = 1 →
      (groupOf c1 1).get? key ≠ none := by
    intro c1 hi hp hf
    obtain ⟨f, hfm⟩ := Option.ne_none_iff_exists'.1 ((hi.dom key).1 hp)
    have hf1 : f = 1 := by rw [← freqOf_of_get? hfm, hf]
    subst hf1
    obtain ⟨g, hg, hgk⟩ := hi.freq_group key 1 hfm
    unfold groupOf
    rw [hg]
    exact hgk
  have hi0 := hc.inv.store key value now
  refine ⟨hi0.minFreq_eq, hs, ?_, ?_⟩
  · apply hmem _ hi0 _ hs
    rw [store_cache_get?, if_pos rfl]
    simp
  · intro fuel iter c' h
    obtain ⟨hi, -⟩ := evictLoop_inv iter fuel _ _ hi0 h
    refine ⟨hi.minFreq_eq, ?_⟩
    intro hp
    have hf : freqOf c' key = 1 := by
      rw [evictLoop_freqOf iter key fuel _ _ h hp, hs]
    exact ⟨hf, hmem c' hi hp hf⟩

/-- Witness for C13: `Add("b", "2")` after `Add("a", "1")` and `Get("a")`, which left
`a` at frequency 2. -/
theorem fresh_insert_resets_minimum_witness :
    freqOf (Get (store (New 100 false) "a" (Value.ofString "1") 1) "a").2.2 "a" = 2 ∧
    (store (Get (store (New 100 false) "a" (Value.ofString "1") 1) "a").2.2 "b"
      (Value.ofString "2") 2).minFreq = 1 ∧
    freqOf (store (Get (store (New 100 false) "a" (Value.ofString "1") 1) "a").2.2 "b"
      (Value.ofString "2") 2) "b" = 1 :=
  ⟨by decide,
    (fresh_insert_resets_minimum ((Reachable.init.store "a" (Value.ofString "1") 1).get "a")
      "b" (Value.ofString "2") 2 (by decide)).1,
    (fresh_insert_resets_minimum ((Reachable.init.store "a" (Value.ofString "1") 1).get "a")
      "b" (Value.ofString "2") 2 (by decide)).2.1⟩

/-- C14 (defect of the code, the one behind C1): `minFreq` is not the smallest frequency
with a group. With capacity 10, after `Add("a", "1")` on the empty cache and `Get("a")`
the only group is that of frequency 2, yet `minFreq` is 1 and not 2; there is no group at
`minFreq`, and `removeOldest` leaves the non-empty cache as it is, in any iteration order. -/
theorem minFreq_not_advanced :
    ∃ c : Cache,
      run 0 (New 10 false) [Op.add "a" (Value.ofString "1") 1 id, Op.get "a"] = some c ∧
      c.Len = 1 ∧ freqOf c "a" = 2 ∧ c.freqToKeys = [(2, [("a", true)])] ∧
      c.minFreq = 1 ∧ c.freqToKeys.get? c.minFreq = none ∧
      ∀ iter, removeOldest iter c = c := by
  refine ⟨(Get (store (New 10 false) "a" (Value.ofString "1") 1) "a").2.2, by decide,
    by decide, by decide, by decide, by decide, by decide, ?_⟩
  intro iter
  unfold removeOldest
  rw [if_neg (by decide)]
  simp only
  rw [if_pos (by decide)]

/-- C16: in every reachable state, every key present in the cache has a frequency `f`, is a
member of the group stored for `f` and of no group stored for another frequency; every
member of a stored group is a key present in the cache whose frequency is that of the
group; and the index holds one group per frequency, each without repeated members. -/
theorem frequency_index_consistent {cap : Int} {cb : Bool} {c : Cache}
    (hc : Reachable cap cb c) :
    (∀ k, c.cache.get? k ≠ none →
      ∃ f g, c.freqMap.get? k = some f ∧ c.freqToKeys.get? f = some g ∧ g.get? k ≠ none ∧
        ∀ e ∈ c.freqToKeys, e.2.get? k ≠ none → e.1 = f) ∧
    (∀ e ∈ c.freqToKeys, ∀ k, e.2.get? k ≠ none →
      c.cache.get? k ≠ none ∧ c.freqMap.get? k = some e.1) ∧
    c.freqToKeys.keys.Nodup ∧ ∀ e ∈ c.freqToKeys, e.2.keys.Nodup := by
  have hi := hc.inv
  have hd := hc.distinct
  have hmem : ∀ e ∈ c.freqToKeys, ∀ k, e.2.get? k ≠ none → c.freqMap.get? k = some e.1 := by
    intro e he k hek
    exact hi.group_freq e.1 e.2 k (GoMap.get?_of_mem _ e hd.freqToKeys_nodup he) hek
  refine ⟨?_, ?_, hd.freqToKeys_nodup, hd.groups_nodup⟩
  · intro k hk
    obtain ⟨f, hf⟩ := Option.ne_none_iff_exists'.1 ((hi.dom k).1 hk)
    obtain ⟨g, hg, hgk⟩ := hi.freq_group k f hf
    refine ⟨f, g, hf, hg, hgk, ?_⟩
    intro e he hek
    have := hmem e he k hek
    rw [hf] at this
    exact (Option.some.inj this).symm
  · intro e he k hek
    have hf := hmem e he k hek
    exact ⟨(hi.dom k).2 (by rw [hf]; simp), hf⟩

/-- Witness for C16: `key1` at frequency 3 in the state of `TestLFUEviction`. -/
theorem frequency_index_consistent_witness :
    freqOf lfuEvictionState "key1" = 3 ∧
    ∃ f g, lfuEvictionState.freqMap.get? "key1" = some f ∧
      lfuEvictionState.freqToKeys.get? f = some g ∧ g.get? "key1" ≠ none ∧
      ∀ e ∈ lfuEvictionState.freqToKeys, e.2.get? "key1" ≠ none → e.1 = f :=
  ⟨by decide, (frequency_index_consistent lfuEvictionState_reachable).1 "key1" (by decide)⟩

/-- C17: in every reachable state, every group stored in the index from frequencies to
keys has at least one member. -/
theorem no_empty_group {cap : Int} {cb : Bool} {c : Cache} (hc : Reachable cap cb c)
    (e : Int × GoMap String Bool) (he : e ∈ c.freqToKeys) :
    e.2 ≠ [] ∧ 0 < e.2.len ∧ ∃ k, e.2.get? k ≠ none := by
  have hne : e.2 ≠ [] :=
    hc.inv.group_nonempty e.1 e.2 (GoMap.get?_of_mem _ e hc.distinct.freqToKeys_nodup he)
  refine ⟨hne, ?_, ?_⟩
  · unfold GoMap.len
    have : 0 < e.2.length := List.length_pos.2 hne
    omega
  · cases hl : e.2 with
    | nil => exact absurd hl hne
    | cons a l =>
      obtain ⟨a1, a2⟩ := a
      exact ⟨a1, by simp [GoMap.get?]⟩

/-- Witness for C17: the group of frequency 2 in the state of `TestLFUEviction`. -/
theorem no_empty_group_witness :
    ((2 : Int), [("key2", true)]) ∈ lfuEvictionState.freqToKeys ∧
    ([("key2", true)] : GoMap String Bool) ≠ [] ∧
    0 < GoMap.len ([("key2", true)] : GoMap String Bool) ∧
    ∃ k, GoMap.get? ([("key2", true)] : GoMap String Bool) k ≠ none :=
  ⟨by decide, no_empty_group lfuEvictionState_reachable (2, [("key2", true)]) (by decide)⟩

/-- C18: in every reachable state `minFreq` is 1. `updateFreq` never changes `minFreq`, on
any state: after `removeFromFreqSet` the group of the old frequency is absent or has a
member, so the guard of `updateFreq` does not hold and `updateFreq` is `removeFromFreqSet`
followed by `setFreq`. -/
theorem minFreq_is_constant {cap : Int} {cb : Bool} {c : Cache} (hc : Reachable cap cb c) :
    c.minFreq = 1 ∧
    (∀ (c0 : Cache) (key : String), (updateFreq c0 key).minFreq = c0.minFreq) ∧
    (∀ (c0 : Cache) (key : String), updateFreq c0 key =
      setFreq (removeFromFreqSet c0 key (freqOf c0 key)) key (freqOf c0 key + 1)) ∧
    ∀ (c0 : Cache) (key : String) (f : Int),
      ¬ ((removeFromFreqSet c0 key f).freqToKeys.get? f ≠ none ∧
        (groupOf (removeFromFreqSet c0 key f) f).len = 0) :=
  ⟨hc.inv.minFreq_eq, fun c0 key => (updateFreq_frame c0 key).2.2.2.2.1,
    updateFreq_eq, removeFromFreqSet_group⟩

/-- Witness for C18: `minFreq` is 1 in the state of `TestLFUEviction`, and also after
`Add` of `key1` and `key2` followed by a `Get` of each, when both keys have frequency 2. -/
theorem minFreq_is_constant_witness :
    lfuEvictionState.minFreq = 1 ∧
    (Get (Get (store (store (New 30 false) "key1" (Value.ofString "val1") 1) "key2"
      (Value.ofString "val2") 2) "key1").2.2 "key2").2.2.minFreq = 1 :=
  ⟨(minFreq_is_constant lfuEvictionState_reachable).1,
    (minFreq_is_constant ((((Reachable.init.store "key1" (Value.ofString "val1") 1).store
      "key2" (Value.ofString "val2") 2).get "key1").get "key2")).1⟩

/-- C15, as stated, fails: the key `a` is stored at time 1; the overwrite `Add("a", "2")`
at time 5 returns with the new value stored and the timestamp of `a` still 1, and a `Get`
of `a`, at whatever later time, also leaves the timestamp 1. -/
theorem timestamp_not_refreshed :
    timeOf (store (New 0 false) "a" (Value.ofString "1") 1) "a" = 1 ∧
    (Add 0 id (store (New 0 false) "a" (Value.ofString "1") 1) "a" (Value.ofString "2") 5).map
      (fun c => (c.cache.get? "a", timeOf c "a")) = some (some (Value.ofString "2"), 1) ∧
    timeOf (Get (store (New 0 false) "a" (Value.ofString "1") 1) "a").2.2 "a" = 1 :=
  ⟨by decide, by decide, by decide⟩

/-- C15 (amended): the timestamp of a key is the time of the `Add` that inserted it. On
every state, `Get(key)` leaves every timestamp unchanged; `Add(key, v)` of a present key
that returns with the key present leaves its timestamp unchanged; and `Add(key, v)` at time
`now` of a key that is not present, when it returns with the key present, records `now`. -/
theorem timestamp_is_insertion_time (c : Cache) (key : String) :
    (∀ k, timeOf (Get c key).2.2 k = timeOf c k) ∧
    (c.cache.get? key ≠ none → ∀ fuel iter value now c',
      Add fuel iter c key value now = some c' → c'.cache.get? key ≠ none →
        timeOf c' key = timeOf c key) ∧
    (c.cache.get? key = none → ∀ fuel iter value now c',
      Add fuel iter c key value now = some c' → c'.cache.get? key ≠ none →
        timeOf c' key = now) := by
  refine ⟨?_, ?_, ?_⟩
  · intro k
    unfold timeOf
    rw [(Get_timeMap c key)]
  · intro hk fuel iter value now c' h hp
    rw [evictLoop_timeOf iter key fuel _ _ h hp, store_timeOf_present _ _ _ _ _ hk]
  · intro hk fuel iter value now c' h hp
    rw [evictLoop_timeOf iter key fuel _ _ h hp, store_timeOf_absent _ _ _ _ _ hk, if_pos rfl]

/-- Witness for C15 as amended: the insertion of `key1` at time 1 in `TestFrequencyUpdate`;
the `Get` that follows keeps the timestamp 1. -/
theorem timestamp_is_insertion_time_witness :
    (∀ c', Add 0 id (New 100 false) "key1" (Value.ofString "value1") 1 = some c' →
      c'.cache.get? "key1" ≠ none → timeOf c' "key1" = 1) ∧
    Add 0 id (New 100 false) "key1" (Value.ofString "value1") 1 =
      some (store (New 100 false) "key1" (Value.ofString "value1") 1) ∧
    timeOf (Get (store (New 100 false) "key1" (Value.ofString "value1") 1) "key1").2.2 "key1" =
      1 :=
  ⟨fun c' h hp => (timestamp_is_insertion_time (New 100 false) "key1").2.2 (by decide) 0 id
      (Value.ofString "value1") 1 c' h hp,
    by decide, by decide⟩

/-- C12, as stated, fails. With capacity 3, `Add("key1", "1234")` of the new key, 8 bytes,
returns with the cache empty and `Bytes()` 0: the entry admitted is evicted as well. With
capacity 10 and the key `a` at frequency 2, `Add` of the new key `big`, 23 bytes, returns
with `a` still present and `big` evicted. The byte totals are those of `int64`. -/
theorem oversized_entry_is_evicted :
    (Add64 1 id (New 3 false) "key1" (Value.ofString "1234") 1).map
      (fun c => (c.cache.keys, c.Bytes)) = some ([], 0) ∧
    (Add64 1 id (Get (store64 (New 10 false) "a" (Value.ofString "1") 1) "a").2.2 "big"
      (Value.ofString "12345678901234567890") 2).map
      (fun c => (c.cache.keys, c.Bytes)) = some (["a"], 2) :=
  ⟨by decide, by decide⟩

/-- C12 (amended), with the byte total in `int64` as in the code: for a cache with capacity
`cap > 0` in a reachable state whose stored values have a non-negative `Len()`, and a key
that is not present, whose own size `len(key) + value.Len()` exceeds the capacity and,
added to the sizes of the entries held, stays below `2^63` (no `int64` overflow): whenever
`Add(key, value)` returns, the new key is not present in the cache and `Bytes()` is at
most `cap`. -/
theorem oversized_entry_not_kept {cap : Int} {cb : Bool} {c c' : Cache} {fuel : Nat}
    {iter : List String → List String} {key : String} {value : Value} {now : Int}
    (hc : Reachable64 cap cb c) (hcap : 0 < cap) (hlen : ∀ e ∈ c.cache, 0 ≤ e.2.Len)
    (hk : c.cache.get? key = none) (hbig : cap < strLen key + value.Len)
    (hrange : bytesOf c.cache + (strLen key + value.Len) < 9223372036854775808)
    (h : Add64 fuel iter c key value now = some c') :
    c'.cache.get? key = none ∧ c'.Bytes ≤ cap := by
  have hs := inv64_store64 hc.inv64 key value now
  have hpos : ∀ e ∈ (store64 c key value now).cache, 0 ≤ strLen e.1 + e.2.Len := by
    intro e he
    rw [store64_cache] at he
    rcases GoMap.mem_set _ _ _ _ he with he | he
    · have h1 := hlen e he
      have h2 : 0 ≤ strLen e.1 := by unfold strLen; exact Int.ofNat_nonneg _
      omega
    · rw [he]
      simp only
      omega
  have hlt : bytesOf (store64 c key value now).cache < 9223372036854775808 := by
    rw [store64_cache, bytesOf_set_new _ _ _ hk]
    exact hrange
  obtain ⟨hi, hg⟩ := evictLoop64_inv iter fuel _ _ hs h
  obtain ⟨r1, r2, r3⟩ := evictLoop64_small iter key fuel _ _ hs hpos hlt h
  have hnn := bytesOf_nonneg_sizes _ r1
  have hb : c'.nBytes = bytesOf c'.cache := by
    rw [hi.total]
    exact wrap64_of_range _ (by omega) r2
  have hm : c'.maxBytes = cap := hi.idx.maxBytes_eq
  have hbound : c'.nBytes ≤ cap := by
    unfold overCapacity at hg
    by_contra hgt
    exact hg ⟨by omega, by omega⟩
  refine ⟨?_, hbound⟩
  by_contra hp
  have hval : c'.cache.get? key = some value := by
    rw [r3 hp, store64_cache, GoMap.get?_set, if_pos rfl]
  have hn : c'.cache.keys.Nodup := hi.idx.nodup
  have hrest : 0 ≤ bytesOf (c'.cache.delete key) :=
    bytesOf_nonneg_sizes _ (fun e he => r1 e (GoMap.mem_delete _ _ _ he).1)
  rw [bytesOf_delete _ _ value hn hval] at hrest
  omega

/-- Witness for C12 as amended: capacity 3 and the new key `key1` of 8 bytes. -/
theorem oversized_entry_not_kept_witness :
    Add64 1 id (New 3 false) "key1" (Value.ofString "1234") 1 =
      some (removeOldest64 id (store64 (New 3 false) "key1" (Value.ofString "1234") 1)) ∧
    (removeOldest64 id (store64 (New 3 false) "key1" (Value.ofString "1234") 1)).cache.get?
      "key1" = none ∧
    (removeOldest64 id (store64 (New 3 false) "key1" (Value.ofString "1234") 1)).Bytes ≤ 3 :=
  ⟨by decide,
    @oversized_entry_not_kept 3 false (New 3 false)
      (removeOldest64 id (store64 (New 3 false) "key1" (Value.ofString "1234") 1)) 1 id "key1"
      (Value.ofString "1234") 1 Reachable64.init (by decide) (by decide) (by decide)
      (by decide) (by decide) (by decide)⟩

/-- C19: on a reachable state, a key whose frequency is at least 2 is never removed by the
calls that follow: after every sequence of `Get` and `Add` calls that returns, whatever the
capacity, the key is present, its frequency is still at least 2, and none of the callback
invocations made by the sequence is for that key. -/
theorem accessed_keys_are_permanent {cap : Int} {cb : Bool} {c : Cache}
    (hc : Reachable cap cb c) (key : String) (hf : 2 ≤ freqOf c key) (fuel : Nat)
    (ops : List Op) (hv : ValidOps ops) (c' : Cache) (h : run fuel c ops = some c') :
    c'.cache.get? key ≠ none ∧ 2 ≤ freqOf c' key ∧
    ∃ extra, c'.calls = c.calls ++ extra ∧ ∀ e ∈ extra, e.1 ≠ key := by
  obtain ⟨hi, hf1, hx⟩ := run_keeps fuel key ops c c' hc.inv hv hf h
  exact ⟨present_of_freq hi key hf1, hf1, hx⟩

/-- Witness for C19: the key `a` at frequency 2 stays through two insertions, the second
of which evicts `b`. -/
theorem accessed_keys_are_permanent_witness :
    (run 1 accessedState laterInserts).map (fun c => (c.cache.keys, c.calls)) =
      some (["a", "c"], [("b", Value.ofString "1234567")]) ∧
    ∀ c', run 1 accessedState laterInserts = some c' →
      c'.cache.get? "a" ≠ none ∧ 2 ≤ freqOf c' "a" ∧
      ∃ extra, c'.calls = accessedState.calls ++ extra ∧ ∀ e ∈ extra, e.1 ≠ "a" :=
  ⟨by decide, fun c' h =>
    accessed_keys_are_permanent accessedState_reachable "a" (by decide) 1 laterInserts
      ⟨fun l => List.Perm.refl l, fun l => List.Perm.refl l, trivial⟩ c' h⟩

/-- C20, as stated, fails when the byte total overflows. With capacity 10 and the only
resident `a` at frequency 2 (2 bytes), the new key `b` with a value whose `Len()` is
`2^63 - 1` makes `Bytes() + len(key) + value.Len()` exceed the capacity, but the total
that `Add` computes in `int64` wraps to a negative number: the eviction loop is not
entered, `Add` returns with `b` kept, and the callback is not invoked. -/
theorem new_key_kept_on_overflow :
    Reachable64 10 true accessedState ∧ accessedState.Bytes ≤ 10 ∧
    accessedState.cache.keys = ["a"] ∧ freqOf accessedState "a" = 2 ∧
    (10 : Int) < accessedState.Bytes + strLen "b" + hugeValue.Len ∧
    (Add64 1 id accessedState "b" hugeValue 2).map
      (fun c => (c.cache.keys, c.Bytes, c.calls)) =
      some (["a", "b"], -9223372036854775806, []) := by
  exact ⟨accessedState_reachable64, by decide, by decide, by decide, by decide, by decide⟩

/-- C20 (amended), with the byte total in `int64` as in the code: on a reachable state with
capacity `cap > 0` and `Bytes()` at most `cap` in which every key present has frequency
at least 2, for a key that is not present and for which the total that `Add` computes,
`Bytes() + (len(key) + value.Len())` in `int64`, exceeds `cap`, `Add(key, value)`
returns, after one `removeOldest`, with every field of the cache equal to what it was
before the call: the new key is not retained and no resident is evicted; the callback,
when there is one, is invoked exactly once, with `(key, value)`. -/
theorem new_key_rejected {cap : Int} {cb : Bool} {c : Cache} (hc : Reachable64 cap cb c)
    (hcap : 0 < cap) (hfit : c.Bytes ≤ cap)
    (hfreq : ∀ k, c.cache.get? k ≠ none → 2 ≤ freqOf c k)
    (key : String) (value : Value) (now : Int) (hk : c.cache.get? key = none)
    (hbig : cap < wrap64 (c.Bytes + wrap64 (strLen key + value.Len)))
    (fuel : Nat) (hfuel : 0 < fuel) (iter : List String → List String) (hv : ValidIter iter) :
    Add64 fuel iter c key value now =
      some { c with calls := if cb then c.calls ++ [(key, value)] else c.calls } := by
  have hi := hc.inv64
  have hm : c.maxBytes = cap := hi.idx.maxBytes_eq
  have hg : c.freqToKeys.get? 1 = none :=
    @no_group_one cap cb (setBytes c (bytesOf c.cache)) hi.idx hfreq
  have hover : overCapacity (store64 c key value now) := by
    unfold overCapacity
    unfold Cache.Bytes at hbig
    rw [store64_maxBytes, store64_nBytes_absent c key value now hk, hm]
    constructor
    · omega
    · omega
  obtain ⟨n, rfl⟩ : ∃ n, fuel = n + 1 := ⟨fuel - 1, by omega⟩
  unfold Add64
  simp only [evictLoop64, hover, if_true]
  rw [removeOldest64_store64_new hi iter hv key value now hk hg]
  apply evictLoop64_done
  unfold overCapacity
  unfold Cache.Bytes at hfit
  simp only [hm]
  intro h
  omega

/-- Witness for C20 as amended: capacity 10 with a callback, the only resident `a` at
frequency 2, and the new key `big` of 23 bytes. -/
theorem new_key_rejected_witness :
    Add64 1 id accessedState "big" (Value.ofString "12345678901234567890") 2 =
      some { accessedState with
        calls := accessedState.calls ++ [("big", Value.ofString "12345678901234567890")] } :=
  new_key_rejected accessedState_reachable64 (by decide) (by decide)
    (by
      intro k hk
      have hcache : accessedState.cache = [("a", Value.ofString "1")] := by decide
      rw [hcache] at hk
      have hka : "a" = k := by
        by_contra hne
        exact hk (by simp [GoMap.get?, hne])
      subst hka
      decide)
    "big" (Value.ofString "12345678901234567890") 2 (by decide) (by decide) 1 (by decide) id
    (fun l => List.Perm.refl l)

end lfu
